import Mathlib

/-!
# lzmafstream: the buffer bridges between liblzma and `std::streambuf`

A shallow embedding of `lzmafstream.h`.  The two bridges `lzma::ifbuf`
(decoding) and `lzma::ofbuf` (encoding) and the three stream front-ends are
translated function by function.  The pieces that live outside the header are
parameters of the embedding:

* liblzma (`lzma_code`, the three initialisers) is a `Codec`: an arbitrary
  state machine that respects the cursor contract of `lzma_stream` (it never
  consumes more than `avail_in` bytes and never produces more than `avail_out`
  bytes);
* the operating system (`::open`, `fstat`, `mmap`, `write`) is an environment
  record that fixes what each call returns.

Integer conventions: `size_t` values are naturals reduced modulo `2^64` by
`size_t`; `std::streamsize` and `int_type` values are integers; the conversion
`static_cast<std::streamsize>` of a `size_t` is `streamsize`.  The `count`
argument of the bulk operations is a non-negative `std::streamsize`.

Loops: every loop of the header is a recursive function on a fuel argument, one
pass per unit, with result `none` when the fuel runs out; "the call returns" is
"from some amount of fuel on the result is `some`", and "the call never returns"
is "the result is `none` for every fuel".  A failed allocation in a `noexcept`
member ends the program and is `none` as well.
-/

namespace lzma

/-! ## Bytes, integers, buffers -/

/-- A `uint8_t` held in a buffer, kept as its numeric value. -/
abbrev Byte := Nat

/-- Reduction of an integer to the range of `size_t` (64 bits, wrapping). -/
def size_t (x : Int) : Nat := (x % 18446744073709551616).toNat

/-- The conversion `static_cast<std::streamsize>(x)` of a `size_t` value. -/
def streamsize (x : Nat) : Int :=
  if x < 9223372036854775808 then (x : Int) else (x : Int) - 18446744073709551616

/-- The value `traits_type::eof()`. -/
def eof : Int := -1

/-- The conversion `traits_type::to_int_type(c)` of a buffer byte: its value as an
`unsigned char`. -/
def to_int_type (c : Byte) : Int := (c : Int)

/-- The conversion of an `int_type` to the `uint8_t` stored in a buffer. -/
def to_byte (ch : Int) : Byte := (ch % 256).toNat

/-- Writing `bytes` into `buf` from index `pos` on (the effect of `std::copy_n`
or of the codec writing through `next_out`). -/
def writeAt (buf : List Byte) (pos : Nat) (bytes : List Byte) : List Byte :=
  buf.take pos ++ bytes ++ buf.drop (pos + bytes.length)

/-! ## The codec (liblzma), a parameter of the embedding -/

/-- Modelled from the spec: the status a codec step reports, "ok", "stream completion"
or anything else (`lzma_ret` of `lzma.h`, which is not part of the header). -/
inductive lzma_ret where
  | LZMA_OK
  | LZMA_STREAM_END
  | LZMA_ERROR (code : Nat)
deriving DecidableEq, Repr

/-- Modelled from the spec: the mode of a codec step, "run" or "finish"
(`lzma_action` of `lzma.h`). -/
inductive lzma_action where
  | LZMA_RUN
  | LZMA_FINISH
deriving DecidableEq, Repr

/-- What one call of `lzma_code` does: the status, the new internal state, how many
input bytes it consumed and the bytes it wrote through `next_out`. -/
structure CodeResult (σ : Type) where
  ret : lzma_ret
  internal : σ
  consumed : Nat
  produced : List Byte

/-- Modelled from the spec: the codec black box `step(mode) -> status` over caller-owned
input/output cursors.  `code st inp room action` is one step from internal state `st`
with the `avail_in` bytes `inp` at `next_in` and `room = avail_out`; the two laws are the
cursor contract of `lzma_stream`.  `blank` is the internal state of `LZMA_STREAM_INIT`. -/
structure Codec (σ : Type) where
  blank : σ
  code : σ → List Byte → Nat → lzma_action → CodeResult σ
  consumed_le : ∀ st inp room action, (code st inp room action).consumed ≤ inp.length
  produced_le : ∀ st inp room action, (code st inp room action).produced.length ≤ room

/-- The `lzma_stream` structure: the two cursors and the codec state.  `next_in` and
`next_out` are offsets into the buffer the pointer was set to.  `fed` and `emitted`
are histories (all bytes consumed, all bytes produced since the stream was
initialised); only their lengths exist in liblzma (`total_in`, `total_out`). -/
structure lzma_stream (σ : Type) where
  next_in : Nat
  avail_in : Nat
  next_out : Nat
  avail_out : Nat
  internal : σ
  fed : List Byte
  emitted : List Byte

/-- The initialiser `LZMA_STREAM_INIT`. -/
def LZMA_STREAM_INIT {σ : Type} (c : Codec σ) : lzma_stream σ :=
  { next_in := 0, avail_in := 0, next_out := 0, avail_out := 0, internal := c.blank,
    fed := [], emitted := [] }

/-- One call `lzma_code(&ls, action)`: the codec sees the `avail_in` bytes at `next_in`
of `inbuf`, writes at `next_out` of `outbuf`, and both cursors advance. -/
def lzma_code {σ : Type} (c : Codec σ) (ls : lzma_stream σ) (inbuf outbuf : List Byte)
    (action : lzma_action) : lzma_ret × lzma_stream σ × List Byte :=
  let inp := (inbuf.drop ls.next_in).take ls.avail_in
  let r := c.code ls.internal inp ls.avail_out action
  (r.ret,
   { next_in := ls.next_in + r.consumed,
     avail_in := ls.avail_in - r.consumed,
     next_out := ls.next_out + r.produced.length,
     avail_out := ls.avail_out - r.produced.length,
     internal := r.internal,
     fed := ls.fed ++ inp.take r.consumed,
     emitted := ls.emitted ++ r.produced },
   writeAt outbuf ls.next_out r.produced)

/-! ## The decoding bridge `ifbuf` -/

/-- What `fstat` leaves behind: its return value and the `st_size` found in the
`struct stat` afterwards. -/
structure stat_result where
  ret : Int
  st_size : Nat

/-- What `mmap` returns: the pointer (as an address; `0` is the null pointer) and the
bytes readable through it. -/
structure mmap_result where
  ptr : Nat
  bytes : List Byte

/-- The value `MAP_FAILED`, `(void*) -1`. -/
def MAP_FAILED : Nat := 18446744073709551615

/-- The environment of a decoding bridge: the system calls and liblzma.
`sys_alloc n` tells whether `std::make_unique<uint8_t[]>(n)` gets its memory; no
allocation of `2^63` bytes or more does. -/
structure IEnv (σ : Type) where
  sys_open : String → Int
  sys_fstat : Int → stat_result
  sys_mmap : Nat → Int → mmap_result
  sys_alloc : Nat → Bool
  alloc_bound : ∀ n, sys_alloc n = true → n < 9223372036854775808
  lzma_stream_decoder : lzma_ret × σ
  codec : Codec σ

/-- The data members of `class ifbuf`; `mapped` is the content behind `mem_`. -/
structure ifbuf (σ : Type) where
  open_ : Bool
  fd_ : Int
  mem_ : Nat
  mapped : List Byte
  ls_ : lzma_stream σ
  b_ : List Byte
  bs_ : Nat
  co_ : Nat

/-- The constructor `ifbuf::ifbuf()`. -/
def ifbuf.init {σ : Type} (env : IEnv σ) : ifbuf σ :=
  { open_ := false, fd_ := -1, mem_ := 0, mapped := [], ls_ := LZMA_STREAM_INIT env.codec,
    b_ := [], bs_ := 0, co_ := 0 }

/-- The member `ifbuf::is_open`. -/
def ifbuf.is_open {σ : Type} (self : ifbuf σ) : Bool := self.open_

/-- The member `ifbuf::close`. -/
def ifbuf.close {σ : Type} (env : IEnv σ) (self : ifbuf σ) : ifbuf σ :=
  if !self.open_ then self
  else
    let r := lzma_code env.codec self.ls_ self.mapped self.b_ lzma_action.LZMA_FINISH
    -- lzma_end releases the codec state
    { self with fd_ := -1, ls_ := { r.2.1 with internal := env.codec.blank }, b_ := r.2.2,
                open_ := false }

/-- The member `ifbuf::open`.  The result is `none` when the allocation of the read
buffer fails: the function is `noexcept`, so the program ends there. -/
def ifbuf.open {σ : Type} (env : IEnv σ) (f : String) (bs : Nat) (self : ifbuf σ) :
    Option (Bool × ifbuf σ) :=
  let self := if self.open_ then ifbuf.close env self else self
  -- open file
  let self := { self with fd_ := env.sys_open f }
  if self.fd_ = -1 then some (false, self)
  else
    -- get file size (the return value of fstat is not looked at)
    let st := env.sys_fstat self.fd_
    let flen := st.st_size
    -- memmap file
    let mem := env.sys_mmap flen self.fd_
    if mem.ptr = 0 then some (false, self)
    else
      let self := { self with mem_ := mem.ptr, mapped := mem.bytes }
      -- set up read buffer
      if !env.sys_alloc bs then none
      else
        let self := { self with b_ := List.replicate bs 0, bs_ := bs, co_ := 0 }
        -- init decoder
        let self := { self with ls_ := LZMA_STREAM_INIT env.codec }
        let ret := env.lzma_stream_decoder.1
        let self := { self with ls_ := { self.ls_ with internal := env.lzma_stream_decoder.2 } }
        if ret ≠ lzma_ret.LZMA_OK then some (false, self)
        else
          let self := { self with ls_ := { self.ls_ with
            next_in := 0, avail_in := flen, next_out := 0, avail_out := self.bs_ } }
          -- do initial decompress to fill read buffer
          let r := lzma_code env.codec self.ls_ self.mapped self.b_ lzma_action.LZMA_RUN
          let self := { self with ls_ := r.2.1, b_ := r.2.2 }
          if r.1 ≠ lzma_ret.LZMA_OK then some (false, self)
          else some (true, { self with open_ := true })

/-- The member `ifbuf::avail_bytes`, in `size_t` arithmetic. -/
def ifbuf.avail_bytes {σ : Type} (self : ifbuf σ) : Nat :=
  let avail_size := size_t ((self.bs_ : Int) - (self.ls_.avail_out : Int))
  size_t ((avail_size : Int) - (self.co_ : Int))

/-- The member `ifbuf::underflow`: the returned `int_type` and the state afterwards.
A read `b_[i]` is `b_.getD i 0`. -/
def ifbuf.underflow {σ : Type} (env : IEnv σ) (self : ifbuf σ) : Int × ifbuf σ :=
  if self.avail_bytes ≠ 0 then
    (to_int_type (self.b_.getD self.co_ 0), self)
  else if self.ls_.avail_in ≠ 0 then
    let self := { self with co_ := 0 }
    let self := { self with ls_ := { self.ls_ with next_out := 0, avail_out := self.bs_ } }
    let r := lzma_code env.codec self.ls_ self.mapped self.b_ lzma_action.LZMA_RUN
    let self := { self with ls_ := r.2.1, b_ := r.2.2 }
    (if r.1 = lzma_ret.LZMA_OK then (self.b_.getD self.co_ 0 : Int) else eof, self)
  else
    (eof, self)

/-- The member `ifbuf::uflow`. -/
def ifbuf.uflow {σ : Type} (env : IEnv σ) (self : ifbuf σ) : Int × ifbuf σ :=
  let r := ifbuf.underflow env self
  if r.1 ≠ eof then (r.1, { r.2 with co_ := size_t ((r.2.co_ : Int) + 1) })
  else (r.1, r.2)

/-- The loop of `ifbuf::xsgetn`, one iteration per unit of `fuel`; `none` when the fuel
runs out before the loop is left.  `count` is the (decremented) parameter, `gcount` the
local total, `dst` the bytes copied to the caller so far. -/
def ifbuf.xsgetn_loop {σ : Type} (env : IEnv σ) :
    Nat → Int → Int → List Byte → ifbuf σ → Option (Int × List Byte × ifbuf σ)
  | 0, _, _, _, _ => none
  | fuel + 1, count, gcount, dst, self =>
    let u := ifbuf.underflow env self
    if u.1 = eof then some (gcount, dst, u.2)
    else
      let self := u.2
      let rdcount := min count (streamsize self.avail_bytes)
      let dst := dst ++ (self.b_.drop self.co_).take rdcount.toNat
      let self := { self with co_ := size_t ((self.co_ : Int) + rdcount) }
      let gcount := gcount + rdcount
      if gcount = count then some (gcount, dst, self)
      else ifbuf.xsgetn_loop env fuel (count - rdcount) gcount dst self

/-- The member `ifbuf::xsgetn(s, count)`: the returned total, the bytes copied into `s`
and the state afterwards. -/
def ifbuf.xsgetn {σ : Type} (env : IEnv σ) (fuel : Nat) (count : Nat) (self : ifbuf σ) :
    Option (Int × List Byte × ifbuf σ) :=
  ifbuf.xsgetn_loop env fuel (count : Int) 0 [] self

/-! ## The encoding bridge `ofbuf` -/

/-- What `write` returns: `-1`, or the number of bytes it wrote. -/
inductive write_result where
  | error
  | wrote (n : Nat)
deriving DecidableEq, Repr

/-- The `ssize_t` a `write` call returns. -/
def write_result.ret : write_result → Int
  | write_result.error => -1
  | write_result.wrote n => (n : Int)

/-- The number of bytes that reached the file. -/
def write_result.written : write_result → Nat
  | write_result.error => 0
  | write_result.wrote n => n

/-- The environment of an encoding bridge: the system calls and liblzma.
`sys_write k req` is what the `k`-th `write` on the descriptor returns when asked to
write the bytes `req`; `sys_alloc n` tells whether `std::make_unique<uint8_t[]>(n)` gets
its memory, and no allocation of `2^63` bytes or more does. -/
structure OEnv (σ : Type) where
  sys_open : String → Int
  sys_write : Nat → List Byte → write_result
  sys_alloc : Nat → Bool
  alloc_bound : ∀ n, sys_alloc n = true → n < 9223372036854775808
  hardware_concurrency : Nat
  lzma_easy_encoder : Nat → lzma_ret × σ
  lzma_stream_encoder_mt : Nat → Nat → lzma_ret × σ
  codec : Codec σ

/-- A record of one store into the accumulation buffer `ib_`: `entry` is `avail_in`
when the `overflow` call before the store was entered, `index` the index of the first
byte stored (the value of `avail_in` at the store), `len` the number of bytes stored and
`cap` the capacity `bs_`. -/
structure store_event where
  entry : Nat
  index : Nat
  len : Nat
  cap : Nat
deriving DecidableEq, Repr

/-- The data members of `class ofbuf`, followed by the observable surroundings: `file`
is the content of the file behind `fd_`, `wlog` the byte ranges passed to `write` (in
order) and `stores` the stores made into `ib_`. -/
structure ofbuf (σ : Type) where
  open_ : Bool
  fd_ : Int
  ls_ : lzma_stream σ
  ib_ : List Byte
  ob_ : List Byte
  bs_ : Nat
  file : List Byte
  wlog : List (List Byte)
  stores : List store_event

/-- The constructor `ofbuf::ofbuf()`. -/
def ofbuf.init {σ : Type} (env : OEnv σ) : ofbuf σ :=
  { open_ := false, fd_ := -1, ls_ := LZMA_STREAM_INIT env.codec, ib_ := [], ob_ := [],
    bs_ := 0, file := [], wlog := [], stores := [] }

/-- The member `ofbuf::is_open`. -/
def ofbuf.is_open {σ : Type} (self : ofbuf σ) : Bool := self.open_

/-- The member `ofbuf::sync`: the returned `int` and the state afterwards. -/
def ofbuf.sync {σ : Type} (env : OEnv σ) (self : ofbuf σ) : Int × ofbuf σ :=
  let wrcount := size_t ((self.bs_ : Int) - (self.ls_.avail_out : Int))
  if wrcount = 0 then (0, self)
  else
    let req := self.ob_.take wrcount
    let wret := env.sys_write self.wlog.length req
    let self := { self with file := self.file ++ req.take wret.written,
                            wlog := self.wlog ++ [req] }
    let self := { self with ls_ := { self.ls_ with next_out := 0, avail_out := self.bs_ } }
    (if wret.ret = -1 then -1 else 0, self)

/-- The loop `while (ls_.avail_in) { ... }` of `ofbuf::overflow`, one iteration per unit
of `fuel`.  The flag is `true` when the loop was left through its condition and `false`
when it was left through one of the two `return traits_type::eof()`. -/
def ofbuf.drain {σ : Type} (env : OEnv σ) : Nat → ofbuf σ → Option (Bool × ofbuf σ)
  | 0, _ => none
  | fuel + 1, self =>
    if self.ls_.avail_in = 0 then some (true, self)
    else
      let r := lzma_code env.codec self.ls_ self.ib_ self.ob_ lzma_action.LZMA_RUN
      let self := { self with ls_ := r.2.1, ob_ := r.2.2 }
      if r.1 ≠ lzma_ret.LZMA_OK then some (false, self)
      else if self.ls_.avail_out = 0 then
        let y := ofbuf.sync env self
        if y.1 = -1 then some (false, y.2) else ofbuf.drain env fuel y.2
      else ofbuf.drain env fuel self

/-- The first half of `ofbuf::overflow` (the check for need to compress): `none` when
the fuel runs out, otherwise whether the function goes on (`true`) or has returned
`traits_type::eof()` (`false`). -/
def ofbuf.compress {σ : Type} (env : OEnv σ) (fuel : Nat) (self : ofbuf σ) :
    Option (Bool × ofbuf σ) :=
  if self.ls_.avail_in = self.bs_ then
    match ofbuf.drain env fuel self with
    | none => none
    | some (false, s) => some (false, s)
    | some (true, s) => some (true, { s with ls_ := { s.ls_ with next_in := 0, avail_in := 0 } })
  else some (true, self)

/-- The member `ofbuf::overflow(ch)`: the returned `int_type` and the state afterwards. -/
def ofbuf.overflow {σ : Type} (env : OEnv σ) (fuel : Nat) (ch : Int) (self : ofbuf σ) :
    Option (Int × ofbuf σ) :=
  match ofbuf.compress env fuel self with
  | none => none
  | some (false, s) => some (eof, s)
  | some (true, s) =>
    -- overflow() technically lets you add a character into the put area
    if ch ≠ eof then
      some (to_int_type 0,
        { s with ib_ := writeAt s.ib_ s.ls_.avail_in [to_byte ch],
                 ls_ := { s.ls_ with avail_in := size_t ((s.ls_.avail_in : Int) + 1) },
                 stores := s.stores ++ [{ entry := self.ls_.avail_in, index := s.ls_.avail_in,
                                          len := 1, cap := s.bs_ }] })
    else some (to_int_type 0, s)

/-- The loop of `ofbuf::xsputn`, one iteration per unit of the fourth argument; `ofuel`
is the fuel handed to each `overflow()`.  `s` is the caller's buffer. -/
def ofbuf.xsputn_loop {σ : Type} (env : OEnv σ) (ofuel : Nat) (s : List Byte) (count : Int) :
    Nat → Int → ofbuf σ → Option (Int × ofbuf σ)
  | 0, _, _ => none
  | fuel + 1, pcount, self =>
    if pcount = count then some (pcount, self)
    else
      match ofbuf.overflow env ofuel eof self with
      | none => none
      | some (r, self1) =>
        if r = eof then some (pcount, self1)
        else
          let wrcount := min (count - pcount)
            (streamsize (size_t ((self1.bs_ : Int) - (self1.ls_.avail_in : Int))))
          let src := (s.drop pcount.toNat).take wrcount.toNat
          let self2 := { self1 with
            ib_ := writeAt self1.ib_ self1.ls_.avail_in src,
            ls_ := { self1.ls_ with avail_in := size_t ((self1.ls_.avail_in : Int) + wrcount) },
            stores := self1.stores ++ [{ entry := self.ls_.avail_in,
                                         index := self1.ls_.avail_in,
                                         len := wrcount.toNat, cap := self1.bs_ }] }
          ofbuf.xsputn_loop env ofuel s count fuel (pcount + wrcount) self2

/-- The member `ofbuf::xsputn(s, count)`: the returned total and the state afterwards. -/
def ofbuf.xsputn {σ : Type} (env : OEnv σ) (fuel : Nat) (s : List Byte) (count : Nat)
    (self : ofbuf σ) : Option (Int × ofbuf σ) :=
  ofbuf.xsputn_loop env fuel s (count : Int) fuel 0 self

/-- The loop `for (;;) { ... }` of `ofbuf::close`, one iteration per unit of `fuel`. -/
def ofbuf.close_loop {σ : Type} (env : OEnv σ) : Nat → ofbuf σ → Option (ofbuf σ)
  | 0, _ => none
  | fuel + 1, self =>
    let r := lzma_code env.codec self.ls_ self.ib_ self.ob_ lzma_action.LZMA_FINISH
    let self := { self with ls_ := r.2.1, ob_ := r.2.2 }
    let self := if self.ls_.avail_out = 0 ∨ r.1 = lzma_ret.LZMA_STREAM_END
                then (ofbuf.sync env self).2 else self
    if r.1 ≠ lzma_ret.LZMA_OK then some self
    else ofbuf.close_loop env fuel self

/-- The member `ofbuf::close`. -/
def ofbuf.close {σ : Type} (env : OEnv σ) (fuel : Nat) (self : ofbuf σ) : Option (ofbuf σ) :=
  if !self.open_ then some self
  else
    match ofbuf.close_loop env fuel self with
    | none => none
    | some s =>
      -- lzma_end releases the codec state
      some { s with fd_ := -1, ls_ := { s.ls_ with internal := env.codec.blank },
                    open_ := false }

/-- The member `ofbuf::open`.  The result is `none` when the `close` of an open bridge
runs out of fuel, and when the allocation of the buffers fails: the function is
`noexcept`, so the program ends there. -/
def ofbuf.open {σ : Type} (env : OEnv σ) (fuel : Nat) (f : String) (preset : Nat) (mt : Bool)
    (bs : Nat) (self : ofbuf σ) : Option (Bool × ofbuf σ) :=
  match (if self.open_ then ofbuf.close env fuel self else some self) with
  | none => none
  | some self =>
    -- create files with rw-r--r-- permissions
    let self := { self with fd_ := env.sys_open f }
    if self.fd_ = -1 then some (false, self)
    else
      -- O_TRUNC: the file behind the new descriptor is empty
      let self := { self with file := [], wlog := [], stores := [] }
      let self := { self with ls_ := LZMA_STREAM_INIT env.codec }
      let r := if mt then env.lzma_stream_encoder_mt preset env.hardware_concurrency
               else env.lzma_easy_encoder preset
      let self := { self with ls_ := { self.ls_ with internal := r.2 } }
      if r.1 ≠ lzma_ret.LZMA_OK then some (false, self)
      else
        let self := { self with bs_ := bs }
        if !env.sys_alloc self.bs_ then none
        else
          let self := { self with ib_ := List.replicate self.bs_ 0,
                                  ob_ := List.replicate self.bs_ 0 }
          let self := { self with ls_ := { self.ls_ with
            next_in := 0, avail_in := 0, next_out := 0, avail_out := self.bs_ } }
          some (true, { self with open_ := true })

/-! ## The stream front-ends -/

/-- The state flags of `std::basic_ios` (`rdstate()`). -/
structure iostate where
  badbit : Bool
  failbit : Bool
  eofbit : Bool
deriving DecidableEq, Repr

/-- The value `std::ios_base::goodbit`: the state of a stream constructed over a
non-null buffer. -/
def goodbit : iostate := { badbit := false, failbit := false, eofbit := false }

/-- The call `setstate(std::ios_base::failbit)`. -/
def setstate_failbit (st : iostate) : iostate := { st with failbit := true }

/-- The class `ifstream`: the stream state and the bridge it owns. -/
structure ifstream (σ : Type) where
  state : iostate
  ifb_ : ifbuf σ

/-- The class `ofstream`. -/
structure ofstream (σ : Type) where
  state : iostate
  ofb_ : ofbuf σ

/-- The class `mtofstream`. -/
structure mtofstream (σ : Type) where
  state : iostate
  ofb_ : ofbuf σ

/-- The member `ifstream::open`. -/
def ifstream.open {σ : Type} (env : IEnv σ) (f : String) (bs : Nat) (self : ifstream σ) :
    Option (ifstream σ) :=
  match ifbuf.open env f bs self.ifb_ with
  | none => none
  | some r =>
    let self := { self with ifb_ := r.2 }
    if !r.1 then some { self with state := setstate_failbit self.state }
    else some self

/-- The member `ofstream::open`: the `if` guards an empty statement, the `setstate`
that follows it is executed in either case. -/
def ofstream.open {σ : Type} (env : OEnv σ) (fuel : Nat) (f : String) (preset : Nat) (bs : Nat)
    (self : ofstream σ) : Option (ofstream σ) :=
  match ofbuf.open env fuel f preset false bs self.ofb_ with
  | none => none
  | some r =>
    let self := { self with ofb_ := r.2 }
    let self := if !r.1 then self else self
    some { self with state := setstate_failbit self.state }

/-- The member `mtofstream::open`. -/
def mtofstream.open {σ : Type} (env : OEnv σ) (fuel : Nat) (f : String) (preset : Nat)
    (bs : Nat) (self : mtofstream σ) : Option (mtofstream σ) :=
  match ofbuf.open env fuel f preset true bs self.ofb_ with
  | none => none
  | some r =>
    let self := { self with ofb_ := r.2 }
    if !r.1 then some { self with state := setstate_failbit self.state }
    else some self

/-! ## Assumptions on the surroundings, invariants, reachable states -/

/-- Every `write` succeeds: none returns `-1`. -/
def OEnv.WritesSucceed {σ : Type} (env : OEnv σ) : Prop :=
  ∀ k req, env.sys_write k req ≠ write_result.error

/-- Every run step that has input and output room reports `LZMA_OK`. -/
def Codec.RunOk {σ : Type} (c : Codec σ) : Prop :=
  ∀ st inp room, inp ≠ [] → 0 < room →
    (c.code st inp room lzma_action.LZMA_RUN).ret = lzma_ret.LZMA_OK

/-- Run steps eventually consume their input: some measure of the codec state and the
input still offered goes down with every run step that has input and output room. -/
def Codec.RunConsumes {σ : Type} (c : Codec σ) : Prop :=
  ∃ rank : σ → List Byte → Nat, ∀ st inp room, inp ≠ [] → 0 < room →
    rank (c.code st inp room lzma_action.LZMA_RUN).internal
         (inp.drop (c.code st inp room lzma_action.LZMA_RUN).consumed) < rank st inp

/-- The bytes pending in the accumulation buffer: the `avail_in` bytes at `next_in`. -/
def ofbuf.pending {σ : Type} (self : ofbuf σ) : List Byte :=
  (self.ib_.drop self.ls_.next_in).take self.ls_.avail_in

/-- The fill level of the output buffer: the `wrcount` of `ofbuf::sync`. -/
def ofbuf.output_fill {σ : Type} (self : ofbuf σ) : Nat :=
  size_t ((self.bs_ : Int) - (self.ls_.avail_out : Int))

/-- The number of valid bytes in the buffer of a decoding bridge: the `avail_size` of
`ifbuf::avail_bytes`. -/
def ifbuf.valid_bytes {σ : Type} (self : ifbuf σ) : Nat :=
  size_t ((self.bs_ : Int) - (self.ls_.avail_out : Int))

/-- A store into the accumulation buffer is in order: it was made into a buffer of
capacity `bs`, not while the buffer was full, every byte of it below the capacity, and at
index `0` when the buffer was full on entry. -/
def store_event.ok (bs : Nat) (e : store_event) : Prop :=
  e.cap = bs ∧ e.index < bs ∧ e.index + e.len ≤ bs ∧ (e.entry = bs → e.index = 0)

/-- The states of an encoding bridge reachable from a successful `open` with buffer
size `bs` by `overflow`, `xsputn` and `sync` calls that returned. -/
inductive ofbuf.Reachable {σ : Type} (env : OEnv σ) (bs : Nat) : ofbuf σ → Prop where
  | opened {fuel : Nat} {f : String} {preset : Nat} {mt : Bool} {s0 s : ofbuf σ} :
      ofbuf.open env fuel f preset mt bs s0 = some (true, s) → ofbuf.Reachable env bs s
  | put {fuel : Nat} {ch r : Int} {s t : ofbuf σ} :
      ofbuf.Reachable env bs s → ofbuf.overflow env fuel ch s = some (r, t) →
      ofbuf.Reachable env bs t
  | bulk {fuel : Nat} {data : List Byte} {count : Nat} {r : Int} {s t : ofbuf σ} :
      ofbuf.Reachable env bs s → ofbuf.xsputn env fuel data count s = some (r, t) →
      ofbuf.Reachable env bs t
  | flush {s : ofbuf σ} :
      ofbuf.Reachable env bs s → ofbuf.Reachable env bs (ofbuf.sync env s).2

/-! ## Concrete codecs and environments -/

/-- A codec that stores: a step moves as many input bytes to the output as fit, and a
finish step that moved all of them reports stream completion. -/
def copy_codec : Codec Unit where
  blank := ()
  code := fun _ inp room action =>
    { ret := if action = lzma_action.LZMA_FINISH ∧ inp.length ≤ room
             then lzma_ret.LZMA_STREAM_END else lzma_ret.LZMA_OK,
      internal := (),
      consumed := min inp.length room,
      produced := inp.take (min inp.length room) }
  consumed_le := by
    intro _ inp room _
    exact Nat.min_le_left _ _
  produced_le := by
    intro _ inp room _
    simp only [List.length_take]
    omega

/-- A decoder that stores and skips padding: a zero byte at the head of the input is
consumed without output, anything else is moved to the output as far as it fits. -/
def padding_codec : Codec Unit where
  blank := ()
  code := fun _ inp room _ =>
    if inp.head? = some 0 then
      { ret := lzma_ret.LZMA_OK, internal := (), consumed := 1, produced := [] }
    else
      { ret := lzma_ret.LZMA_OK, internal := (), consumed := min inp.length room,
        produced := inp.take (min inp.length room) }
  consumed_le := by
    intro _ inp room _
    cases inp with
    | nil => simp
    | cons b rest =>
      by_cases hb : b = 0
      · simp [hb]
      · simp [hb]
  produced_le := by
    intro _ inp room _
    by_cases h : inp.head? = some 0
    · simp [h]
    · simp [h]

/-- A decoding environment in which every system call succeeds on a file with the given
content. -/
def file_ienv (c : Codec Unit) (content : List Byte) : IEnv Unit where
  sys_open := fun _ => 3
  sys_fstat := fun _ => { ret := 0, st_size := content.length }
  sys_mmap := fun _ _ => { ptr := 4096, bytes := content }
  sys_alloc := fun n => decide (n < 9223372036854775808)
  alloc_bound := by
    intro n h
    exact of_decide_eq_true h
  lzma_stream_decoder := (lzma_ret.LZMA_OK, ())
  codec := c

/-- A decoding environment on an empty file: the file opens, its size is `0`, and
`mmap` of zero bytes fails with `MAP_FAILED`. -/
def empty_file_ienv : IEnv Unit where
  sys_open := fun _ => 3
  sys_fstat := fun _ => { ret := 0, st_size := 0 }
  sys_mmap := fun _ _ => { ptr := MAP_FAILED, bytes := [] }
  sys_alloc := fun n => decide (n < 9223372036854775808)
  alloc_bound := by
    intro n h
    exact of_decide_eq_true h
  lzma_stream_decoder := (lzma_ret.LZMA_OK, ())
  codec := copy_codec

/-- An encoding environment in which the file opens, both encoders initialise and
every `write` returns what `wr` says. -/
def store_oenv (wr : Nat → List Byte → write_result) : OEnv Unit where
  sys_open := fun _ => 3
  sys_write := wr
  sys_alloc := fun n => decide (n < 9223372036854775808)
  alloc_bound := by
    intro n h
    exact of_decide_eq_true h
  hardware_concurrency := 4
  lzma_easy_encoder := fun _ => (lzma_ret.LZMA_OK, ())
  lzma_stream_encoder_mt := fun _ _ => (lzma_ret.LZMA_OK, ())
  codec := copy_codec

/-- A `write` that writes everything it is given. -/
def write_all : Nat → List Byte → write_result :=
  fun _ req => write_result.wrote req.length

/-- A `write` that writes one byte and then returns (a short write). -/
def write_one : Nat → List Byte → write_result :=
  fun _ _ => write_result.wrote 1

/-- The results of `n` successive `uflow` calls and the state after them. -/
def ifbuf.uflow_n {σ : Type} (env : IEnv σ) : Nat → ifbuf σ → List Int × ifbuf σ
  | 0, self => ([], self)
  | n + 1, self =>
    let r := ifbuf.uflow env self
    let rest := ifbuf.uflow_n env n r.2
    (r.1 :: rest.1, rest.2)

/-- The states of a decoding bridge reachable from a successful `open` with buffer
size `bs` by `underflow`, `uflow` and `xsgetn` calls that returned. -/
inductive ifbuf.Reachable {σ : Type} (env : IEnv σ) (bs : Nat) : ifbuf σ → Prop where
  | opened {f : String} {s0 s : ifbuf σ} :
      ifbuf.open env f bs s0 = some (true, s) → ifbuf.Reachable env bs s
  | peek {s : ifbuf σ} :
      ifbuf.Reachable env bs s → ifbuf.Reachable env bs (ifbuf.underflow env s).2
  | get {s : ifbuf σ} :
      ifbuf.Reachable env bs s → ifbuf.Reachable env bs (ifbuf.uflow env s).2
  | bulk {fuel count : Nat} {r : Int} {dst : List Byte} {s t : ifbuf σ} :
      ifbuf.Reachable env bs s → ifbuf.xsgetn env fuel count s = some (r, dst, t) →
      ifbuf.Reachable env bs t

/-- A file of one data byte followed by one padding byte, read through a buffer of
one byte. -/
def padded_env : IEnv Unit := file_ienv padding_codec [5, 0]

/-- The decoding bridge opened on the padded file with buffer size `1`. -/
def padded_opened : Bool × ifbuf Unit :=
  (ifbuf.open padded_env "in.xz" 1 (ifbuf.init padded_env)).getD (false, ifbuf.init padded_env)

/-- The padded bridge after its one data byte was consumed by `uflow`. -/
def padded_drained : ifbuf Unit := (ifbuf.uflow padded_env padded_opened.2).2

/-- A stored file of four bytes. -/
def four_env : IEnv Unit := file_ienv copy_codec [1, 2, 3, 4]

/-- The decoding bridge opened on the four-byte file with buffer size `1`. -/
def four_opened : Bool × ifbuf Unit :=
  (ifbuf.open four_env "in.xz" 1 (ifbuf.init four_env)).getD (false, ifbuf.init four_env)

/-- An encoding environment whose writes all succeed in full. -/
def full_oenv : OEnv Unit := store_oenv write_all

/-- An encoding environment whose writes are short. -/
def short_oenv : OEnv Unit := store_oenv write_one

/-- Writing the four bytes `1 2 3 4` in bulk through an encoding bridge of buffer
size `4`: the result of `xsputn`. -/
def sample_written : Option (Int × ofbuf Unit) :=
  (ofbuf.open full_oenv 9 "out.xz" 6 false 4 (ofbuf.init full_oenv)).bind
    (fun r => ofbuf.xsputn full_oenv 9 [1, 2, 3, 4] 4 r.2)

/-- The encoding bridge of `sample_written` after `close`. -/
def sample_closed : Option (ofbuf Unit) :=
  sample_written.bind (fun r => ofbuf.close full_oenv 9 r.2)

/-- The file produced by `sample_closed`. -/
def sample_file : List Byte := (sample_closed.map (fun s => s.file)).getD []

/-- The decoding environment on the file produced by `sample_closed`. -/
def sample_denv : IEnv Unit := file_ienv copy_codec sample_file

/-- The decoding bridge opened on `sample_file` with buffer size `2`. -/
def sample_opened : Bool × ifbuf Unit :=
  (ifbuf.open sample_denv "out.xz" 2 (ifbuf.init sample_denv)).getD
    (false, ifbuf.init sample_denv)

/-- An encoding bridge of buffer size `2` with short writes, holding two bytes. -/
def short_filled : Option (Int × ofbuf Unit) :=
  (ofbuf.open short_oenv 9 "out.xz" 6 false 2 (ofbuf.init short_oenv)).bind
    (fun r => ofbuf.xsputn short_oenv 9 [1, 2] 2 r.2)

/-- The state in which `ofbuf::overflow` calls `sync` from `short_filled`: the state
after the run step that filled the output buffer. -/
def short_before_sync : ofbuf Unit :=
  match short_filled with
  | none => ofbuf.init short_oenv
  | some r =>
    let c := lzma_code short_oenv.codec r.2.ls_ r.2.ib_ r.2.ob_ lzma_action.LZMA_RUN
    { r.2 with ls_ := c.2.1, ob_ := c.2.2 }

/-- The step the codec takes when `lzma_code(&ls_, action)` is called in state `self`. -/
def ofbuf.code_result {σ : Type} (env : OEnv σ) (action : lzma_action) (self : ofbuf σ) :
    CodeResult σ :=
  env.codec.code self.ls_.internal self.pending self.ls_.avail_out action

/-- The state of the bridge after the call `lzma_code(&ls_, action)`. -/
def ofbuf.coded {σ : Type} (env : OEnv σ) (action : lzma_action) (self : ofbuf σ) : ofbuf σ :=
  { self with ls_ := (lzma_code env.codec self.ls_ self.ib_ self.ob_ action).2.1,
              ob_ := (lzma_code env.codec self.ls_ self.ib_ self.ob_ action).2.2 }

/-- The shape every reachable state of an encoding bridge of capacity `bs` has. -/
structure ofbuf.Sane {σ : Type} (bs : Nat) (s : ofbuf σ) : Prop where
  cap : s.bs_ = bs
  in_le : s.ls_.avail_in ≤ bs
  out_eq : s.ls_.next_out + s.ls_.avail_out = bs
  ib_len : s.ib_.length = bs
  ob_len : s.ob_.length = bs
  stores_ok : ∀ e ∈ s.stores, e.ok bs
  opened : s.open_ = true

/-- The pending input lies inside the accumulation buffer and the output buffer has
room: the shape of the states in which the bridge calls the codec when no step and no
write has failed. -/
def ofbuf.Mid {σ : Type} (bs : Nat) (self : ofbuf σ) : Prop :=
  self.ls_.next_in + self.ls_.avail_in ≤ bs ∧ 1 ≤ self.ls_.avail_out

/-- The shape of the states between calls when no step and no write has failed: the
input cursor is at the start of the accumulation buffer and the output buffer has
room. -/
def ofbuf.Steady {σ : Type} (self : ofbuf σ) : Prop :=
  self.ls_.next_in = 0 ∧ 1 ≤ self.ls_.avail_out

/-- The number of bytes one pass of the loop of `ofbuf::xsputn` copies (`wrcount`). -/
def ofbuf.xsputn_wrcount {σ : Type} (count pcount : Int) (s1 : ofbuf σ) : Int :=
  min (count - pcount) (streamsize (size_t ((s1.bs_ : Int) - (s1.ls_.avail_in : Int))))

/-- The state after the copy of one pass of the loop of `ofbuf::xsputn`; `entry` is
`avail_in` at the start of the pass. -/
def ofbuf.xsputn_copy {σ : Type} (data : List Byte) (pcount wrcount : Int) (entry : Nat)
    (s1 : ofbuf σ) : ofbuf σ :=
  { s1 with
    ib_ := writeAt s1.ib_ s1.ls_.avail_in ((data.drop pcount.toNat).take wrcount.toNat),
    ls_ := { s1.ls_ with avail_in := size_t ((s1.ls_.avail_in : Int) + wrcount) },
    stores := s1.stores ++ [{ entry := entry, index := s1.ls_.avail_in,
                              len := wrcount.toNat, cap := s1.bs_ }] }

/-- The state after the store of `ofbuf::overflow(ch)` with `ch` not end-of-file;
`entry` is `avail_in` at the start of the call. -/
def ofbuf.put_char {σ : Type} (ch : Int) (entry : Nat) (s : ofbuf σ) : ofbuf σ :=
  { s with ib_ := writeAt s.ib_ s.ls_.avail_in [to_byte ch],
           ls_ := { s.ls_ with avail_in := size_t ((s.ls_.avail_in : Int) + 1) },
           stores := s.stores ++ [{ entry := entry, index := s.ls_.avail_in,
                                    len := 1, cap := s.bs_ }] }

/-- An encoding bridge opened with buffer size `2`, all writes in full. -/
def two_opened : Bool × ofbuf Unit :=
  (ofbuf.open full_oenv 9 "out.xz" 6 false 2 (ofbuf.init full_oenv)).getD
    (false, ofbuf.init full_oenv)

/-- The bridge `two_opened` after the bulk write of the three bytes `7 8 9`. -/
def two_written : Int × ofbuf Unit :=
  (ofbuf.xsputn full_oenv 9 [7, 8, 9] 3 two_opened.2).getD (eof, ofbuf.init full_oenv)

/-- A decoding environment in which `fstat` fails and leaves a stale `st_size` of `4`
behind, on a stored file of four bytes. -/
def stat_fails_ienv : IEnv Unit where
  sys_open := fun _ => 3
  sys_fstat := fun _ => { ret := -1, st_size := 4 }
  sys_mmap := fun _ _ => { ptr := 4096, bytes := [1, 2, 3, 4] }
  sys_alloc := fun n => decide (n < 9223372036854775808)
  alloc_bound := by
    intro n h
    exact of_decide_eq_true h
  lzma_stream_decoder := (lzma_ret.LZMA_OK, ())
  codec := copy_codec

/-- The cursor invariant of the decoding bridge, `consumed <= valid <= capacity`, in
terms of the members: `co_ + avail_out <= bs_` (no subtraction, so no wrap), for a
buffer that could be allocated. -/
def ifbuf.Inv {σ : Type} (self : ifbuf σ) : Prop :=
  self.co_ + self.ls_.avail_out ≤ self.bs_ ∧ self.bs_ < 9223372036854775808

/-- The step the codec takes when `underflow` refills the buffer in state `self`. -/
def ifbuf.refill_result {σ : Type} (env : IEnv σ) (self : ifbuf σ) : CodeResult σ :=
  env.codec.code self.ls_.internal
    ((self.mapped.drop self.ls_.next_in).take self.ls_.avail_in) self.bs_ lzma_action.LZMA_RUN

/-! # Theorems -/

/-! ## Integer and buffer arithmetic -/

theorem to_int_type_ne_eof (c : Byte) : to_int_type c ≠ eof := by
  unfold to_int_type eof
  omega

theorem size_t_of_nat (a : Nat) (ha : a < 18446744073709551616) : size_t (a : Int) = a := by
  unfold size_t
  omega

theorem size_t_sub (a b : Nat) (hb : b ≤ a) (ha : a < 18446744073709551616) :
    size_t ((a : Int) - (b : Int)) = a - b := by
  unfold size_t
  omega

theorem streamsize_of_lt (a : Nat) (ha : a < 9223372036854775808) : streamsize a = (a : Int) := by
  unfold streamsize
  rw [if_pos ha]

/-! ## The decoding bridge -/

theorem ifbuf.underflow_of_avail {σ : Type} (env : IEnv σ) (self : ifbuf σ)
    (hav : self.avail_bytes ≠ 0) :
    ifbuf.underflow env self = (to_int_type (self.b_.getD self.co_ 0), self) := by
  unfold ifbuf.underflow
  rw [if_pos hav]

/-- Once the requested count is used up while the running total is not zero and
unread bytes are buffered, the loop of `xsgetn` goes round without changing anything:
no amount of fuel makes it return. -/
theorem ifbuf.xsgetn_loop_stuck {σ : Type} (env : IEnv σ) (self : ifbuf σ) (g : Int)
    (hav : self.avail_bytes ≠ 0) (hav2 : self.avail_bytes < 9223372036854775808)
    (hco : self.co_ < 18446744073709551616) (hg : g ≠ 0) :
    ∀ fuel dst, ifbuf.xsgetn_loop env fuel 0 g dst self = none := by
  intro fuel
  induction fuel with
  | zero => intro dst; rfl
  | succ n ih =>
    intro dst
    have hrd : min (0 : Int) (streamsize self.avail_bytes) = 0 := by
      rw [streamsize_of_lt _ hav2]
      omega
    have hco2 : size_t (self.co_ : Int) = self.co_ := size_t_of_nat _ hco
    unfold ifbuf.xsgetn_loop
    simp only [ifbuf.underflow_of_avail env self hav, to_int_type_ne_eof, if_false, hrd, hco2,
      Int.toNat_zero, List.take_zero, List.append_nil, add_zero, sub_zero, hg]
    exact ih dst

/-- C1 (round trip), evaluated at a failing input.  The four bytes `1 2 3 4` are
written in bulk through an encoding bridge (buffer size `4`, a storing codec, writes
in full): `xsputn` returns `4`, `close` leaves the bridge closed and the file holds the
encoded bytes.  A decoding bridge with buffer size `2` opens on that file, and a bulk
read of `3` bytes from it never returns, whatever the fuel: after the second pass the
loop of `xsgetn` compares the running total `3` with the decremented count `0`. -/
theorem roundtrip_bulk_read_never_returns :
    sample_written.map (fun r => r.1) = some 4 ∧
    sample_closed.map (fun s => (s.is_open, s.file)) = some (false, [1, 2, 3, 4]) ∧
    sample_opened.1 = true ∧
    ∀ fuel, ifbuf.xsgetn sample_denv fuel 3 sample_opened.2 = none := by
  refine ⟨by decide, by decide, by decide, ?_⟩
  intro fuel
  match fuel with
  | 0 => rfl
  | 1 => rfl
  | 2 => rfl
  | n + 3 =>
    have h := ifbuf.xsgetn_loop_stuck sample_denv
      { sample_opened.2 with
        co_ := 1, b_ := [3, 4],
        ls_ := { sample_opened.2.ls_ with next_in := 4, avail_in := 0, next_out := 2,
                                          avail_out := 0, fed := [1, 2, 3, 4],
                                          emitted := [1, 2, 3, 4] } }
      3 (by decide) (by decide) (by decide) (by decide) (n + 1) [1, 2, 3]
    exact h

/-- C2 (front-end open marks failure exactly on failure), evaluated at a failing input.
On a path where the bridge's `open` returns `true`, `ofstream::open` leaves the bridge
open and sets the fail flag of a stream that was good; `mtofstream::open` on the same
input leaves the flag clear. -/
theorem ofstream_open_sets_failbit_on_success :
    (ofbuf.open full_oenv 1 "out.xz" 6 false 16 (ofbuf.init full_oenv)).map (fun r => r.1)
      = some true ∧
    (ofstream.open full_oenv 1 "out.xz" 6 16
        { state := goodbit, ofb_ := ofbuf.init full_oenv }).map
      (fun t => (t.ofb_.is_open, t.state.failbit)) = some (true, true) ∧
    (mtofstream.open full_oenv 1 "out.xz" 6 16
        { state := goodbit, ofb_ := ofbuf.init full_oenv }).map
      (fun t => (t.ofb_.is_open, t.state.failbit)) = some (true, false) := by
  refine ⟨by decide, by decide, by decide⟩

/-- C3 (short read), evaluated at a failing input.  A decoding bridge with buffer size
`1` is open on a file whose four decoded bytes `1 2 3 4` all remain (five `uflow` calls
deliver them and then end-of-data).  A bulk read of `5` bytes returns `3`, not `4`, and
the bulk read of `5` bytes after it returns `1`, not `0`. -/
theorem xsgetn_short_read_leaves_bytes :
    four_opened.1 = true ∧
    (ifbuf.uflow_n four_env 5 four_opened.2).1 = [1, 2, 3, 4, eof] ∧
    (ifbuf.xsgetn four_env 9 5 four_opened.2).map (fun r => (r.1, r.2.1))
      = some (3, [1, 2, 3]) ∧
    ((ifbuf.xsgetn four_env 9 5 four_opened.2).bind
        (fun r => ifbuf.xsgetn four_env 9 5 r.2.2)).map (fun r => (r.1, r.2.1))
      = some (1, [4]) := by
  refine ⟨by decide, by decide, by decide, by decide⟩

/-- C5 (decoding-bridge open reports every failure), evaluated at two failing inputs.
On an empty file `mmap` returns `MAP_FAILED`; `ifbuf::open` compares the pointer with
null only, goes on, and returns `true` with `is_open()` true.  And when `fstat` returns
`-1`, `ifbuf::open` does not look at the return value, uses the `st_size` it finds, and
returns `true` with `is_open()` true. -/
theorem ifbuf_open_succeeds_when_mmap_fails :
    (empty_file_ienv.sys_mmap 0 3).ptr = MAP_FAILED ∧
    (ifbuf.open empty_file_ienv "empty.xz" 16 (ifbuf.init empty_file_ienv)).map
      (fun r => (r.1, r.2.is_open)) = some (true, true) ∧
    (stat_fails_ienv.sys_fstat 3).ret = -1 ∧
    (ifbuf.open stat_fails_ienv "in.xz" 16 (ifbuf.init stat_fails_ienv)).map
      (fun r => (r.1, r.2.is_open)) = some (true, true) := by
  refine ⟨by decide, by decide, by decide, by decide⟩

/-- C7 (cursor invariant of the decoding bridge), evaluated at a failing input.  After
`open` and two `uflow` calls on a file whose last byte the codec consumes without
output, the state is reachable, `co_` is `1` and the buffer holds `0` valid bytes: the
invariant `consumed <= valid <= capacity` is broken and `avail_bytes` has wrapped. -/
theorem uflow_breaks_cursor_invariant :
    ifbuf.Reachable padded_env 1 (ifbuf.uflow padded_env padded_drained).2 ∧
    (ifbuf.uflow padded_env padded_drained).2.co_ = 1 ∧
    (ifbuf.uflow padded_env padded_drained).2.valid_bytes = 0 ∧
    ¬ ((ifbuf.uflow padded_env padded_drained).2.co_ ≤
        (ifbuf.uflow padded_env padded_drained).2.valid_bytes) ∧
    (ifbuf.uflow padded_env padded_drained).2.avail_bytes = 18446744073709551615 := by
  refine ⟨?_, by decide, by decide, by decide, by decide⟩
  apply ifbuf.Reachable.get
  apply ifbuf.Reachable.get
  exact ifbuf.Reachable.opened (rfl : ifbuf.open padded_env "in.xz" 1 (ifbuf.init padded_env)
    = some (true, padded_opened.2))

/-- C10 (a single-byte read never returns a byte the codec did not produce), evaluated
at a failing input.  The buffer (size `1`) is exhausted and one compressed byte remains;
the refill step reports `LZMA_OK` and produces nothing.  `underflow` returns `5`, the
byte of the previous fill, not end-of-data; afterwards the buffer has no unread byte
and the codec has produced nothing new. -/
theorem underflow_returns_stale_byte :
    padded_opened.1 = true ∧
    padded_drained.bs_ = 1 ∧
    padded_drained.avail_bytes = 0 ∧
    padded_drained.ls_.avail_in = 1 ∧
    (ifbuf.underflow padded_env padded_drained).1 = 5 ∧
    (ifbuf.underflow padded_env padded_drained).1 ≠ eof ∧
    (ifbuf.underflow padded_env padded_drained).2.avail_bytes = 0 ∧
    (ifbuf.underflow padded_env padded_drained).2.ls_.emitted = padded_drained.ls_.emitted := by
  refine ⟨by decide, by decide, by decide, by decide, by decide, by decide, by decide,
    by decide⟩

/-! ## The encoding bridge: buffers and one codec step -/

theorem writeAt_length (buf : List Byte) (pos : Nat) (bytes : List Byte)
    (h : pos + bytes.length ≤ buf.length) : (writeAt buf pos bytes).length = buf.length := by
  unfold writeAt
  simp only [List.length_append, List.length_take, List.length_drop]
  omega

theorem writeAt_take (buf : List Byte) (pos : Nat) (bytes : List Byte) (h : pos ≤ buf.length) :
    (writeAt buf pos bytes).take (pos + bytes.length) = buf.take pos ++ bytes := by
  unfold writeAt
  have hl : (buf.take pos ++ bytes).length = pos + bytes.length := by
    simp only [List.length_append, List.length_take]
    omega
  rw [← hl]
  exact List.take_left _ _

theorem slice_drop (l : List Byte) (a n c : Nat) :
    ((l.drop a).take n).drop c = (l.drop (a + c)).take (n - c) := by
  rw [List.drop_take, List.drop_drop]

theorem ofbuf.coded_ret {σ : Type} (env : OEnv σ) (action : lzma_action) (s : ofbuf σ) :
    (lzma_code env.codec s.ls_ s.ib_ s.ob_ action).1 = (s.code_result env action).ret := rfl

theorem ofbuf.coded_avail_in {σ : Type} (env : OEnv σ) (action : lzma_action) (s : ofbuf σ) :
    (s.coded env action).ls_.avail_in = s.ls_.avail_in - (s.code_result env action).consumed :=
  rfl

theorem ofbuf.coded_next_in {σ : Type} (env : OEnv σ) (action : lzma_action) (s : ofbuf σ) :
    (s.coded env action).ls_.next_in = s.ls_.next_in + (s.code_result env action).consumed :=
  rfl

theorem ofbuf.coded_avail_out {σ : Type} (env : OEnv σ) (action : lzma_action) (s : ofbuf σ) :
    (s.coded env action).ls_.avail_out
      = s.ls_.avail_out - (s.code_result env action).produced.length := rfl

theorem ofbuf.coded_next_out {σ : Type} (env : OEnv σ) (action : lzma_action) (s : ofbuf σ) :
    (s.coded env action).ls_.next_out
      = s.ls_.next_out + (s.code_result env action).produced.length := rfl

theorem ofbuf.coded_internal {σ : Type} (env : OEnv σ) (action : lzma_action) (s : ofbuf σ) :
    (s.coded env action).ls_.internal = (s.code_result env action).internal := rfl

theorem ofbuf.coded_fed {σ : Type} (env : OEnv σ) (action : lzma_action) (s : ofbuf σ) :
    (s.coded env action).ls_.fed
      = s.ls_.fed ++ s.pending.take (s.code_result env action).consumed := rfl

theorem ofbuf.coded_ob {σ : Type} (env : OEnv σ) (action : lzma_action) (s : ofbuf σ) :
    (s.coded env action).ob_
      = writeAt s.ob_ s.ls_.next_out (s.code_result env action).produced := rfl

theorem ofbuf.coded_pending {σ : Type} (env : OEnv σ) (action : lzma_action) (s : ofbuf σ) :
    (s.coded env action).pending = s.pending.drop (s.code_result env action).consumed := by
  unfold ofbuf.pending
  rw [slice_drop]
  rfl

/-- A codec step moves bytes from the pending input to the history of consumed bytes. -/
theorem ofbuf.coded_fed_pending {σ : Type} (env : OEnv σ) (action : lzma_action)
    (s : ofbuf σ) :
    (s.coded env action).ls_.fed ++ (s.coded env action).pending = s.ls_.fed ++ s.pending := by
  rw [ofbuf.coded_fed, ofbuf.coded_pending, List.append_assoc, List.take_append_drop]

theorem ofbuf.Sane.after_code {σ : Type} {bs : Nat} {s : ofbuf σ} (h : s.Sane bs) (env : OEnv σ)
    (action : lzma_action) : (s.coded env action).Sane bs := by
  have hp := env.codec.produced_le s.ls_.internal s.pending s.ls_.avail_out action
  have hp2 : (s.code_result env action).produced.length ≤ s.ls_.avail_out := hp
  have ho := h.out_eq
  refine ⟨h.cap, ?_, ?_, h.ib_len, ?_, h.stores_ok, h.opened⟩
  · rw [ofbuf.coded_avail_in]
    have := h.in_le
    omega
  · rw [ofbuf.coded_avail_out, ofbuf.coded_next_out]
    omega
  · rw [ofbuf.coded_ob, writeAt_length]
    · exact h.ob_len
    · rw [h.ob_len]
      omega

theorem ofbuf.sync_idle {σ : Type} (env : OEnv σ) (s : ofbuf σ) (h : s.output_fill = 0) :
    ofbuf.sync env s = (0, s) := by
  unfold ofbuf.sync
  unfold ofbuf.output_fill at h
  simp only [h, if_true]

theorem ofbuf.sync_write {σ : Type} (env : OEnv σ) (s : ofbuf σ) (h : s.output_fill ≠ 0) :
    ofbuf.sync env s =
      (if (env.sys_write s.wlog.length (s.ob_.take s.output_fill)).ret = -1 then -1 else 0,
       { s with
         file := s.file ++ (s.ob_.take s.output_fill).take
                   (env.sys_write s.wlog.length (s.ob_.take s.output_fill)).written,
         wlog := s.wlog ++ [s.ob_.take s.output_fill],
         ls_ := { s.ls_ with next_out := 0, avail_out := s.bs_ } }) := by
  unfold ofbuf.sync
  unfold ofbuf.output_fill at h
  simp only [h, if_false]
  rfl

theorem ofbuf.sync_frame {σ : Type} (env : OEnv σ) (s : ofbuf σ) :
    (ofbuf.sync env s).2.bs_ = s.bs_ ∧ (ofbuf.sync env s).2.ib_ = s.ib_ ∧
    (ofbuf.sync env s).2.ob_ = s.ob_ ∧ (ofbuf.sync env s).2.stores = s.stores ∧
    (ofbuf.sync env s).2.open_ = s.open_ ∧
    (ofbuf.sync env s).2.ls_.next_in = s.ls_.next_in ∧
    (ofbuf.sync env s).2.ls_.avail_in = s.ls_.avail_in ∧
    (ofbuf.sync env s).2.ls_.internal = s.ls_.internal ∧
    (ofbuf.sync env s).2.ls_.fed = s.ls_.fed ∧
    (ofbuf.sync env s).2.ls_.emitted = s.ls_.emitted := by
  by_cases h : s.output_fill = 0
  · rw [ofbuf.sync_idle env s h]
    simp
  · rw [ofbuf.sync_write env s h]
    simp

theorem ofbuf.sync_pending {σ : Type} (env : OEnv σ) (s : ofbuf σ) :
    (ofbuf.sync env s).2.pending = s.pending := by
  obtain ⟨_, h2, _, _, _, h6, h7, _⟩ := ofbuf.sync_frame env s
  unfold ofbuf.pending
  rw [h2, h6, h7]

theorem ofbuf.Sane.output_fill_eq {σ : Type} {bs : Nat} {s : ofbuf σ} (h : s.Sane bs)
    (hbs : bs < 18446744073709551616) : s.output_fill = s.ls_.next_out := by
  unfold ofbuf.output_fill
  have h1 := h.out_eq
  rw [h.cap, size_t_sub _ _ (by omega) hbs]
  omega

/-- After `sync` the output cursor is back at the start with the full capacity. -/
theorem ofbuf.Sane.sync_cursor {σ : Type} {bs : Nat} {s : ofbuf σ} (h : s.Sane bs)
    (hbs : bs < 18446744073709551616) (env : OEnv σ) :
    (ofbuf.sync env s).2.ls_.next_out = 0 ∧ (ofbuf.sync env s).2.ls_.avail_out = bs := by
  have hf := h.output_fill_eq hbs
  have ho := h.out_eq
  by_cases h0 : s.output_fill = 0
  · rw [ofbuf.sync_idle env s h0]
    simp only
    omega
  · rw [ofbuf.sync_write env s h0]
    exact ⟨rfl, h.cap⟩

theorem ofbuf.Sane.after_sync {σ : Type} {bs : Nat} {s : ofbuf σ} (h : s.Sane bs)
    (hbs : bs < 18446744073709551616) (env : OEnv σ) : (ofbuf.sync env s).2.Sane bs := by
  obtain ⟨h1, h2, h3, h4, h5, _, h7, _⟩ := ofbuf.sync_frame env s
  obtain ⟨c1, c2⟩ := h.sync_cursor hbs env
  refine ⟨?_, ?_, ?_, ?_, ?_, ?_, ?_⟩
  · rw [h1]; exact h.cap
  · rw [h7]; exact h.in_le
  · rw [c1, c2]; omega
  · rw [h2]; exact h.ib_len
  · rw [h3]; exact h.ob_len
  · rw [h4]; exact h.stores_ok
  · rw [h5]; exact h.opened

theorem ofbuf.sync_ret_of_succeed {σ : Type} (env : OEnv σ) (hw : env.WritesSucceed)
    (s : ofbuf σ) : (ofbuf.sync env s).1 ≠ -1 := by
  by_cases h0 : s.output_fill = 0
  · rw [ofbuf.sync_idle env s h0]
    show (0 : Int) ≠ -1
    decide
  · rw [ofbuf.sync_write env s h0]
    have := hw s.wlog.length (s.ob_.take s.output_fill)
    cases hr : env.sys_write s.wlog.length (s.ob_.take s.output_fill) with
    | error => exact absurd hr this
    | wrote n =>
      simp only [write_result.ret]
      have : ¬ ((n : Int) = -1) := by omega
      rw [if_neg this]
      decide

/-! ## The encoding bridge: the compression loop of `overflow` -/

theorem ofbuf.drain_succ {σ : Type} (env : OEnv σ) (fuel : Nat) (s : ofbuf σ) :
    ofbuf.drain env (fuel + 1) s =
      if s.ls_.avail_in = 0 then some (true, s)
      else if (s.code_result env lzma_action.LZMA_RUN).ret ≠ lzma_ret.LZMA_OK then
        some (false, s.coded env lzma_action.LZMA_RUN)
      else if (s.coded env lzma_action.LZMA_RUN).ls_.avail_out = 0 then
        (if (ofbuf.sync env (s.coded env lzma_action.LZMA_RUN)).1 = -1 then
           some (false, (ofbuf.sync env (s.coded env lzma_action.LZMA_RUN)).2)
         else ofbuf.drain env fuel (ofbuf.sync env (s.coded env lzma_action.LZMA_RUN)).2)
      else ofbuf.drain env fuel (s.coded env lzma_action.LZMA_RUN) := rfl

theorem ofbuf.coded_frame {σ : Type} (env : OEnv σ) (action : lzma_action) (s : ofbuf σ) :
    (s.coded env action).bs_ = s.bs_ ∧ (s.coded env action).ib_ = s.ib_ ∧
    (s.coded env action).stores = s.stores ∧ (s.coded env action).open_ = s.open_ ∧
    (s.coded env action).file = s.file ∧ (s.coded env action).wlog = s.wlog :=
  ⟨rfl, rfl, rfl, rfl, rfl, rfl⟩

/-- Whatever the codec and the writes do, the compression loop keeps the shape of the
state, does not touch the accumulation buffer, and leaves no pending input when it is
left through its condition. -/
theorem ofbuf.drain_sane {σ : Type} (env : OEnv σ) (bs : Nat)
    (hbs : bs < 18446744073709551616) :
    ∀ (fuel : Nat) (s : ofbuf σ) (r : Bool) (t : ofbuf σ), s.Sane bs →
      ofbuf.drain env fuel s = some (r, t) →
      t.Sane bs ∧ t.ib_ = s.ib_ ∧ t.stores = s.stores ∧ (r = true → t.ls_.avail_in = 0) := by
  intro fuel
  induction fuel with
  | zero => intro s r t _ h; exact absurd h (by simp [ofbuf.drain])
  | succ n ih =>
    intro s r t hs h
    rw [ofbuf.drain_succ] at h
    split at h
    · rename_i h0
      simp only [Option.some.injEq, Prod.mk.injEq] at h
      obtain ⟨_, rfl⟩ := h
      exact ⟨hs, rfl, rfl, fun _ => h0⟩
    · have hc := hs.after_code env lzma_action.LZMA_RUN
      split at h
      · simp only [Option.some.injEq, Prod.mk.injEq] at h
        obtain ⟨rfl, rfl⟩ := h
        exact ⟨hc, rfl, rfl, fun hf => absurd hf (by decide)⟩
      · split at h
        · have hy := hc.after_sync hbs env
          obtain ⟨_, f2, _, f4, _⟩ := ofbuf.sync_frame env (s.coded env lzma_action.LZMA_RUN)
          split at h
          · simp only [Option.some.injEq, Prod.mk.injEq] at h
            obtain ⟨rfl, rfl⟩ := h
            exact ⟨hy, f2, f4, fun hf => absurd hf (by decide)⟩
          · obtain ⟨a, b, c, d⟩ := ih _ r t hy h
            exact ⟨a, b.trans f2, c.trans f4, d⟩
        · obtain ⟨a, b, c, d⟩ := ih (s.coded env lzma_action.LZMA_RUN) r t hc h
          exact ⟨a, b, c, d⟩

theorem ofbuf.Sane.pending_length {σ : Type} {bs : Nat} {s : ofbuf σ} (h : s.Sane bs)
    (hin : s.ls_.next_in + s.ls_.avail_in ≤ bs) : s.pending.length = s.ls_.avail_in := by
  unfold ofbuf.pending
  rw [List.length_take, List.length_drop, h.ib_len]
  omega

/-- One run step from a state whose pending input lies in the buffer: the step is
offered a non-empty input and leaves the pending input in the buffer. -/
theorem ofbuf.Mid.code_in_bounds {σ : Type} {bs : Nat} {s : ofbuf σ} (hm : s.Mid bs) (hs : s.Sane bs)
    (env : OEnv σ) (action : lzma_action) :
    (s.coded env action).ls_.next_in + (s.coded env action).ls_.avail_in ≤ bs := by
  have hl := hs.pending_length hm.1
  have hc : (s.code_result env action).consumed ≤ s.pending.length :=
    env.codec.consumed_le _ _ _ _
  rw [ofbuf.coded_next_in, ofbuf.coded_avail_in]
  have := hm.1
  omega

/-- When run steps report ok and writes succeed, the compression loop can only be left
through its condition: everything that was pending has then been consumed by the codec,
and the output buffer has room again. -/
theorem ofbuf.drain_good {σ : Type} (env : OEnv σ) (hok : env.codec.RunOk)
    (hw : env.WritesSucceed) (bs : Nat) (h1 : 1 ≤ bs) (hbs : bs < 18446744073709551616) :
    ∀ (fuel : Nat) (s : ofbuf σ) (r : Bool) (t : ofbuf σ), s.Sane bs → s.Mid bs →
      ofbuf.drain env fuel s = some (r, t) →
      r = true ∧ t.Mid bs ∧ t.ls_.fed ++ t.pending = s.ls_.fed ++ s.pending := by
  intro fuel
  induction fuel with
  | zero => intro s r t _ _ h; exact absurd h (by simp [ofbuf.drain])
  | succ n ih =>
    intro s r t hs hm h
    rw [ofbuf.drain_succ] at h
    split at h
    · simp only [Option.some.injEq, Prod.mk.injEq] at h
      obtain ⟨rfl, rfl⟩ := h
      exact ⟨rfl, hm, rfl⟩
    · rename_i h0
      have hl := hs.pending_length hm.1
      have hne : s.pending ≠ [] := by
        intro he
        rw [he] at hl
        simp only [List.length_nil] at hl
        exact h0 hl.symm
      have hret : (s.code_result env lzma_action.LZMA_RUN).ret = lzma_ret.LZMA_OK :=
        hok _ _ _ hne hm.2
      have hc := hs.after_code env lzma_action.LZMA_RUN
      have hmc := hm.code_in_bounds hs env lzma_action.LZMA_RUN
      have hfp := ofbuf.coded_fed_pending env lzma_action.LZMA_RUN s
      rw [if_neg (by simp [hret])] at h
      split at h
      · rw [if_neg (ofbuf.sync_ret_of_succeed env hw _)] at h
        obtain ⟨_, _, _, _, _, f6, f7, _, f9, _⟩ :=
          ofbuf.sync_frame env (s.coded env lzma_action.LZMA_RUN)
        have hcur := hc.sync_cursor hbs env
        have hmid : (ofbuf.sync env (s.coded env lzma_action.LZMA_RUN)).2.Mid bs := by
          refine ⟨?_, ?_⟩
          · rw [f6, f7]; exact hmc
          · rw [hcur.2]; exact h1
        obtain ⟨a, b, c⟩ := ih _ r t (hc.after_sync hbs env) hmid h
        refine ⟨a, b, ?_⟩
        rw [c, f9, ofbuf.sync_pending, hfp]
      · rename_i hout
        have hmid : (s.coded env lzma_action.LZMA_RUN).Mid bs := ⟨hmc, by omega⟩
        obtain ⟨a, b, c⟩ := ih _ r t hc hmid h
        exact ⟨a, b, c.trans hfp⟩

/-! ## The encoding bridge: `overflow` -/

theorem ofbuf.compress_eq {σ : Type} (env : OEnv σ) (fuel : Nat) (s : ofbuf σ) :
    ofbuf.compress env fuel s =
      if s.ls_.avail_in = s.bs_ then
        match ofbuf.drain env fuel s with
        | none => none
        | some (false, d) => some (false, d)
        | some (true, d) =>
          some (true, { d with ls_ := { d.ls_ with next_in := 0, avail_in := 0 } })
      else some (true, s) := rfl

theorem ofbuf.overflow_eq {σ : Type} (env : OEnv σ) (fuel : Nat) (ch : Int) (s : ofbuf σ) :
    ofbuf.overflow env fuel ch s =
      match ofbuf.compress env fuel s with
      | none => none
      | some (false, t) => some (eof, t)
      | some (true, t) =>
        if ch ≠ eof then some (to_int_type 0, t.put_char ch s.ls_.avail_in)
        else some (to_int_type 0, t) := rfl

/-- Whatever the codec and the writes do: the first half of `overflow` keeps the shape
of the state and, when the function goes on, leaves room in the accumulation buffer;
a buffer that was full on entry is then empty. -/
theorem ofbuf.compress_sane {σ : Type} (env : OEnv σ) (bs : Nat) (h1 : 1 ≤ bs)
    (hbs : bs < 18446744073709551616) (fuel : Nat) (s : ofbuf σ) (b : Bool) (t : ofbuf σ)
    (hs : s.Sane bs) (h : ofbuf.compress env fuel s = some (b, t)) :
    t.Sane bs ∧ t.stores = s.stores ∧
    (b = true → t.ls_.avail_in < bs ∧ (s.ls_.avail_in = bs → t.ls_.avail_in = 0)) := by
  rw [ofbuf.compress_eq] at h
  split at h
  · rename_i hfull
    split at h
    · exact absurd h (by simp)
    · rename_i d hd
      simp only [Option.some.injEq, Prod.mk.injEq] at h
      obtain ⟨rfl, rfl⟩ := h
      obtain ⟨a, _, c, _⟩ := ofbuf.drain_sane env bs hbs fuel s false _ hs hd
      exact ⟨a, c, fun hf => absurd hf (by decide)⟩
    · rename_i d hd
      simp only [Option.some.injEq, Prod.mk.injEq] at h
      obtain ⟨rfl, rfl⟩ := h
      obtain ⟨a, _, c, _⟩ := ofbuf.drain_sane env bs hbs fuel s true _ hs hd
      refine ⟨⟨a.cap, ?_, a.out_eq, a.ib_len, a.ob_len, a.stores_ok, a.opened⟩, c,
        fun _ => ⟨?_, fun _ => rfl⟩⟩
      · exact Nat.zero_le _
      · exact h1
  · rename_i hfull
    simp only [Option.some.injEq, Prod.mk.injEq] at h
    obtain ⟨rfl, rfl⟩ := h
    have hle := hs.in_le
    rw [hs.cap] at hfull
    exact ⟨hs, rfl, fun _ => ⟨by omega, fun hf => absurd hf hfull⟩⟩

theorem ofbuf.Sane.after_put_char {σ : Type} {bs : Nat} {t : ofbuf σ} (ht : t.Sane bs)
    (hbs : bs < 18446744073709551616) (hroom : t.ls_.avail_in < bs) (ch : Int) (entry : Nat)
    (hentry : entry = bs → t.ls_.avail_in = 0) : (t.put_char ch entry).Sane bs := by
  have hsz : size_t ((t.ls_.avail_in : Int) + 1) = t.ls_.avail_in + 1 := by
    unfold size_t
    omega
  refine ⟨ht.cap, ?_, ht.out_eq, ?_, ht.ob_len, ?_, ht.opened⟩
  · show size_t ((t.ls_.avail_in : Int) + 1) ≤ bs
    rw [hsz]
    omega
  · show (writeAt t.ib_ t.ls_.avail_in [to_byte ch]).length = bs
    rw [writeAt_length, ht.ib_len]
    rw [ht.ib_len]
    simp only [List.length_singleton]
    omega
  · intro e he
    have he2 : e ∈ t.stores ++ [{ entry := entry, index := t.ls_.avail_in, len := 1,
                                  cap := t.bs_ }] := he
    rw [List.mem_append, List.mem_singleton] at he2
    rcases he2 with he2 | rfl
    · exact ht.stores_ok e he2
    · exact ⟨ht.cap, hroom, by show t.ls_.avail_in + 1 ≤ bs; omega, hentry⟩

theorem ofbuf.overflow_sane {σ : Type} (env : OEnv σ) (bs : Nat) (h1 : 1 ≤ bs)
    (hbs : bs < 18446744073709551616) (fuel : Nat) (ch : Int) (s : ofbuf σ) (r : Int)
    (t : ofbuf σ) (hs : s.Sane bs) (h : ofbuf.overflow env fuel ch s = some (r, t)) :
    t.Sane bs := by
  rw [ofbuf.overflow_eq] at h
  split at h
  · exact absurd h (by simp)
  · rename_i d hd
    simp only [Option.some.injEq, Prod.mk.injEq] at h
    obtain ⟨_, rfl⟩ := h
    exact (ofbuf.compress_sane env bs h1 hbs fuel s false _ hs hd).1
  · rename_i d hd
    obtain ⟨a, _, c⟩ := ofbuf.compress_sane env bs h1 hbs fuel s true _ hs hd
    obtain ⟨c1, c2⟩ := c rfl
    split at h
    · simp only [Option.some.injEq, Prod.mk.injEq] at h
      obtain ⟨_, rfl⟩ := h
      exact a.after_put_char hbs c1 ch _ c2
    · simp only [Option.some.injEq, Prod.mk.injEq] at h
      obtain ⟨_, rfl⟩ := h
      exact a

/-! ## The encoding bridge: `xsputn` -/

theorem ofbuf.xsputn_loop_succ {σ : Type} (env : OEnv σ) (ofuel : Nat) (data : List Byte)
    (count : Int) (fuel : Nat) (pcount : Int) (s : ofbuf σ) :
    ofbuf.xsputn_loop env ofuel data count (fuel + 1) pcount s =
      if pcount = count then some (pcount, s)
      else
        match ofbuf.overflow env ofuel eof s with
        | none => none
        | some (r, s1) =>
          if r = eof then some (pcount, s1)
          else ofbuf.xsputn_loop env ofuel data count fuel
                 (pcount + ofbuf.xsputn_wrcount count pcount s1)
                 (s1.xsputn_copy data pcount (ofbuf.xsputn_wrcount count pcount s1)
                    s.ls_.avail_in) := rfl

/-- The call `overflow()` of `xsputn` stores nothing: it returns end-of-file when its
first half failed, and otherwise the state its first half left. -/
theorem ofbuf.overflow_eof_cases {σ : Type} (env : OEnv σ) (fuel : Nat) (s : ofbuf σ)
    (r : Int) (d : ofbuf σ) (h : ofbuf.overflow env fuel eof s = some (r, d)) :
    (r = eof ∧ ofbuf.compress env fuel s = some (false, d)) ∨
    (r = to_int_type 0 ∧ ofbuf.compress env fuel s = some (true, d)) := by
  rw [ofbuf.overflow_eq] at h
  split at h
  · exact absurd h (by simp)
  · rename_i t ht
    simp only [Option.some.injEq, Prod.mk.injEq] at h
    obtain ⟨rfl, rfl⟩ := h
    exact Or.inl ⟨rfl, ht⟩
  · rename_i t ht
    rw [if_neg (by simp)] at h
    simp only [Option.some.injEq, Prod.mk.injEq] at h
    obtain ⟨rfl, rfl⟩ := h
    exact Or.inr ⟨rfl, ht⟩

/-- With room in the accumulation buffer, `wrcount` is the smaller of what is left to
write and the room. -/
theorem ofbuf.xsputn_wrcount_eq {σ : Type} {bs : Nat} {s1 : ofbuf σ} (hs : s1.Sane bs)
    (hbs : bs < 9223372036854775808) (count pcount : Int) :
    ofbuf.xsputn_wrcount count pcount s1
      = min (count - pcount) (((bs - s1.ls_.avail_in : Nat) : Int)) := by
  unfold ofbuf.xsputn_wrcount
  have hle := hs.in_le
  rw [hs.cap, size_t_sub _ _ hle (by omega), streamsize_of_lt _ (by omega)]

theorem ofbuf.Sane.after_xsputn_copy {σ : Type} {bs : Nat} {t : ofbuf σ} (ht : t.Sane bs)
    (hbs : bs < 9223372036854775808) (hroom : t.ls_.avail_in < bs) (data : List Byte)
    (count pcount : Int) (hlt : pcount < count) (entry : Nat)
    (hentry : entry = bs → t.ls_.avail_in = 0) :
    (t.xsputn_copy data pcount (ofbuf.xsputn_wrcount count pcount t) entry).Sane bs := by
  have hw := ofbuf.xsputn_wrcount_eq ht hbs count pcount
  have hle := ht.in_le
  have hw1 : 1 ≤ ofbuf.xsputn_wrcount count pcount t := by rw [hw]; omega
  have hw2 : ofbuf.xsputn_wrcount count pcount t ≤ ((bs - t.ls_.avail_in : Nat) : Int) := by
    rw [hw]; omega
  have hsz : size_t ((t.ls_.avail_in : Int) + ofbuf.xsputn_wrcount count pcount t)
      = t.ls_.avail_in + (ofbuf.xsputn_wrcount count pcount t).toNat := by
    unfold size_t
    omega
  refine ⟨ht.cap, ?_, ht.out_eq, ?_, ht.ob_len, ?_, ht.opened⟩
  · show size_t ((t.ls_.avail_in : Int) + ofbuf.xsputn_wrcount count pcount t) ≤ bs
    rw [hsz]
    omega
  · show (writeAt t.ib_ t.ls_.avail_in
      ((data.drop pcount.toNat).take (ofbuf.xsputn_wrcount count pcount t).toNat)).length = bs
    have hl : ((data.drop pcount.toNat).take (ofbuf.xsputn_wrcount count pcount t).toNat).length
        ≤ (ofbuf.xsputn_wrcount count pcount t).toNat := by
      rw [List.length_take]
      exact Nat.min_le_left _ _
    rw [writeAt_length, ht.ib_len]
    rw [ht.ib_len]
    omega
  · intro e he
    have he2 : e ∈ t.stores ++ [{ entry := entry, index := t.ls_.avail_in,
                                  len := (ofbuf.xsputn_wrcount count pcount t).toNat,
                                  cap := t.bs_ }] := he
    rw [List.mem_append, List.mem_singleton] at he2
    rcases he2 with he2 | rfl
    · exact ht.stores_ok e he2
    · refine ⟨ht.cap, hroom, ?_, hentry⟩
      show t.ls_.avail_in + (ofbuf.xsputn_wrcount count pcount t).toNat ≤ bs
      omega

/-- Whatever the codec and the writes do: when the loop of `xsputn` returns, the shape
of the state is kept and the returned total lies between the total on entry and
`count`. -/
theorem ofbuf.xsputn_loop_sane {σ : Type} (env : OEnv σ) (bs : Nat) (h1 : 1 ≤ bs)
    (hbs : bs < 9223372036854775808) (ofuel : Nat) (data : List Byte) (count : Int) :
    ∀ (fuel : Nat) (pcount : Int) (s : ofbuf σ) (r : Int) (t : ofbuf σ), s.Sane bs →
      pcount ≤ count →
      ofbuf.xsputn_loop env ofuel data count fuel pcount s = some (r, t) →
      t.Sane bs ∧ pcount ≤ r ∧ r ≤ count := by
  intro fuel
  induction fuel with
  | zero => intro pcount s r t _ _ h; exact absurd h (by simp [ofbuf.xsputn_loop])
  | succ n ih =>
    intro pcount s r t hs hp h
    rw [ofbuf.xsputn_loop_succ] at h
    split at h
    · simp only [Option.some.injEq, Prod.mk.injEq] at h
      obtain ⟨rfl, rfl⟩ := h
      exact ⟨hs, le_refl _, hp⟩
    · rename_i hne
      cases hov : ofbuf.overflow env ofuel eof s with
      | none =>
        rw [hov] at h
        exact absurd h (by simp)
      | some rd =>
        obtain ⟨r1, d⟩ := rd
        rw [hov] at h
        simp only at h
        rcases ofbuf.overflow_eof_cases env ofuel s r1 d hov with ⟨rfl, hd⟩ | ⟨rfl, hd⟩
        · rw [if_pos rfl] at h
          simp only [Option.some.injEq, Prod.mk.injEq] at h
          obtain ⟨rfl, rfl⟩ := h
          exact ⟨(ofbuf.compress_sane env bs h1 (by omega) ofuel s false _ hs hd).1,
            le_refl _, hp⟩
        · rw [if_neg (to_int_type_ne_eof 0)] at h
          obtain ⟨a, _, c⟩ := ofbuf.compress_sane env bs h1 (by omega) ofuel s true _ hs hd
          obtain ⟨c1, c2⟩ := c rfl
          have hlt : pcount < count := lt_of_le_of_ne hp hne
          have hw := ofbuf.xsputn_wrcount_eq a hbs count pcount
          have hcopy := a.after_xsputn_copy hbs c1 data count pcount hlt s.ls_.avail_in c2
          obtain ⟨x, y, z⟩ := ih _ _ r t hcopy (by rw [hw]; omega) h
          refine ⟨x, ?_, z⟩
          rw [hw] at y
          omega

/-! ## The encoding bridge: `open` and the reachable states -/

/-- What a successful `open` leaves: empty buffers of the requested size, both cursors
at the start, an empty file and empty histories. -/
theorem ofbuf.open_state {σ : Type} (env : OEnv σ) (fuel : Nat) (f : String) (preset : Nat)
    (mt : Bool) (bs : Nat) (s0 s : ofbuf σ)
    (h : ofbuf.open env fuel f preset mt bs s0 = some (true, s)) :
    s.open_ = true ∧ s.bs_ = bs ∧ s.ib_ = List.replicate bs 0 ∧ s.ob_ = List.replicate bs 0 ∧
    s.ls_.next_in = 0 ∧ s.ls_.avail_in = 0 ∧ s.ls_.next_out = 0 ∧ s.ls_.avail_out = bs ∧
    s.ls_.fed = [] ∧ s.ls_.emitted = [] ∧ s.file = [] ∧ s.wlog = [] ∧ s.stores = [] ∧
    env.sys_alloc bs = true := by
  unfold ofbuf.open at h
  split at h
  · exact absurd h (by simp)
  · simp only at h
    split at h
    · exact absurd h (by simp)
    · cases mt
      · simp only [Bool.false_eq_true, if_false] at h
        split at h
        · exact absurd h (by simp)
        · split at h
          · exact absurd h (by simp)
          · rename_i ha
            simp only [Option.some.injEq, Prod.mk.injEq, true_and] at h
            subst h
            simpa [LZMA_STREAM_INIT] using ha
      · simp only [if_true] at h
        split at h
        · exact absurd h (by simp)
        · split at h
          · exact absurd h (by simp)
          · rename_i ha
            simp only [Option.some.injEq, Prod.mk.injEq, true_and] at h
            subst h
            simpa [LZMA_STREAM_INIT] using ha

theorem ofbuf.open_sane {σ : Type} (env : OEnv σ) (fuel : Nat) (f : String) (preset : Nat)
    (mt : Bool) (bs : Nat) (s0 s : ofbuf σ)
    (h : ofbuf.open env fuel f preset mt bs s0 = some (true, s)) : s.Sane bs := by
  obtain ⟨h0, h2, h3, h4, _, h6, h7, h8, _, _, _, _, h13, _⟩ :=
    ofbuf.open_state env fuel f preset mt bs s0 s h
  refine ⟨h2, ?_, ?_, ?_, ?_, ?_, h0⟩
  · rw [h6]; exact Nat.zero_le _
  · rw [h7, h8]; omega
  · rw [h3]; exact List.length_replicate _ _
  · rw [h4]; exact List.length_replicate _ _
  · intro e he
    rw [h13] at he
    exact absurd he (List.not_mem_nil e)

theorem ofbuf.xsputn_sane {σ : Type} (env : OEnv σ) (bs : Nat) (h1 : 1 ≤ bs)
    (hbs : bs < 9223372036854775808) (fuel : Nat) (data : List Byte) (count : Nat)
    (s : ofbuf σ) (r : Int) (t : ofbuf σ) (hs : s.Sane bs)
    (h : ofbuf.xsputn env fuel data count s = some (r, t)) :
    t.Sane bs ∧ 0 ≤ r ∧ r ≤ (count : Int) :=
  ofbuf.xsputn_loop_sane env bs h1 hbs fuel data count fuel 0 s r t hs (by omega) h

/-- Every reachable state of an encoding bridge with a buffer size between `1` and
`2^63 - 1` has the shape `Sane`. -/
theorem ofbuf.Reachable.sane {σ : Type} {env : OEnv σ} {bs : Nat} (h1 : 1 ≤ bs)
    (hbs : bs < 9223372036854775808) {s : ofbuf σ} (hr : ofbuf.Reachable env bs s) :
    s.Sane bs := by
  induction hr with
  | opened h => exact ofbuf.open_sane env _ _ _ _ bs _ _ h
  | put _ h ih => exact ofbuf.overflow_sane env bs h1 (by omega) _ _ _ _ _ ih h
  | bulk _ h ih => exact (ofbuf.xsputn_sane env bs h1 hbs _ _ _ _ _ _ ih h).1
  | flush _ ih => exact ih.after_sync (by omega) env

theorem ofbuf.Reachable.bound {σ : Type} {env : OEnv σ} {bs : Nat} {s : ofbuf σ}
    (hr : ofbuf.Reachable env bs s) : bs < 9223372036854775808 := by
  induction hr with
  | opened h =>
    exact env.alloc_bound bs (ofbuf.open_state env _ _ _ _ bs _ _ h).2.2.2.2.2.2.2.2.2.2.2.2.2
  | put _ _ ih => exact ih
  | bulk _ _ ih => exact ih
  | flush _ ih => exact ih

/-! ## The encoding bridge when no run step and no write fails -/

theorem ofbuf.Steady.mid {σ : Type} {bs : Nat} {s : ofbuf σ} (h : s.Steady) (hs : s.Sane bs) :
    s.Mid bs := by
  refine ⟨?_, h.2⟩
  rw [h.1]
  have := hs.in_le
  omega

theorem ofbuf.compress_good {σ : Type} (env : OEnv σ) (hok : env.codec.RunOk)
    (hw : env.WritesSucceed) (bs : Nat) (h1 : 1 ≤ bs) (hbs : bs < 18446744073709551616)
    (fuel : Nat) (s : ofbuf σ) (b : Bool) (t : ofbuf σ) (hs : s.Sane bs) (hst : s.Steady)
    (h : ofbuf.compress env fuel s = some (b, t)) :
    b = true ∧ t.Steady ∧ t.ls_.fed ++ t.pending = s.ls_.fed ++ s.pending := by
  rw [ofbuf.compress_eq] at h
  split at h
  · split at h
    · exact absurd h (by simp)
    · rename_i d hd
      have := (ofbuf.drain_good env hok hw bs h1 hbs fuel s false d hs (hst.mid hs) hd).1
      exact absurd this (by decide)
    · rename_i d hd
      simp only [Option.some.injEq, Prod.mk.injEq] at h
      obtain ⟨rfl, rfl⟩ := h
      obtain ⟨_, hm, hf⟩ := ofbuf.drain_good env hok hw bs h1 hbs fuel s true d hs (hst.mid hs) hd
      obtain ⟨_, _, _, h0⟩ := ofbuf.drain_sane env bs hbs fuel s true d hs hd
      have hp : d.pending = [] := by
        unfold ofbuf.pending
        rw [h0 rfl, List.take_zero]
      refine ⟨rfl, ⟨rfl, hm.2⟩, ?_⟩
      rw [← hf, hp]
      show d.ls_.fed ++ (d.ib_.drop 0).take 0 = d.ls_.fed ++ []
      rw [List.take_zero]
  · simp only [Option.some.injEq, Prod.mk.injEq] at h
    obtain ⟨rfl, rfl⟩ := h
    exact ⟨rfl, hst, rfl⟩

theorem ofbuf.Steady.pending_eq {σ : Type} {s : ofbuf σ} (h : s.Steady) :
    s.pending = s.ib_.take s.ls_.avail_in := by
  unfold ofbuf.pending
  rw [h.1, List.drop_zero]

theorem ofbuf.put_char_good {σ : Type} {bs : Nat} {t : ofbuf σ} (ht : t.Sane bs)
    (hst : t.Steady) (hbs : bs < 18446744073709551616) (hroom : t.ls_.avail_in < bs)
    (ch : Int) (entry : Nat) :
    (t.put_char ch entry).Steady ∧
    (t.put_char ch entry).ls_.fed ++ (t.put_char ch entry).pending
      = t.ls_.fed ++ t.pending ++ [to_byte ch] := by
  have hsz : size_t ((t.ls_.avail_in : Int) + 1) = t.ls_.avail_in + 1 := by
    unfold size_t
    omega
  have hst2 : (t.put_char ch entry).Steady := ⟨hst.1, hst.2⟩
  refine ⟨hst2, ?_⟩
  rw [hst2.pending_eq, hst.pending_eq, List.append_assoc]
  show t.ls_.fed ++ (writeAt t.ib_ t.ls_.avail_in [to_byte ch]).take
      (size_t ((t.ls_.avail_in : Int) + 1)) = _
  rw [hsz]
  have := writeAt_take t.ib_ t.ls_.avail_in [to_byte ch] (by rw [ht.ib_len]; omega)
  rw [List.length_singleton] at this
  rw [this]

theorem ofbuf.overflow_good {σ : Type} (env : OEnv σ) (hok : env.codec.RunOk)
    (hw : env.WritesSucceed) (bs : Nat) (h1 : 1 ≤ bs) (hbs : bs < 18446744073709551616)
    (fuel : Nat) (ch : Int) (s : ofbuf σ) (r : Int) (t : ofbuf σ) (hs : s.Sane bs)
    (hst : s.Steady) (h : ofbuf.overflow env fuel ch s = some (r, t)) :
    r = to_int_type 0 ∧ t.Steady ∧
    t.ls_.fed ++ t.pending
      = s.ls_.fed ++ s.pending ++ (if ch = eof then [] else [to_byte ch]) := by
  rw [ofbuf.overflow_eq] at h
  split at h
  · exact absurd h (by simp)
  · rename_i d hd
    have := (ofbuf.compress_good env hok hw bs h1 hbs fuel s false d hs hst hd).1
    exact absurd this (by decide)
  · rename_i d hd
    obtain ⟨_, hds, hdf⟩ := ofbuf.compress_good env hok hw bs h1 hbs fuel s true d hs hst hd
    obtain ⟨a, _, c⟩ := ofbuf.compress_sane env bs h1 hbs fuel s true d hs hd
    split at h
    · rename_i hch
      simp only [Option.some.injEq, Prod.mk.injEq] at h
      obtain ⟨rfl, rfl⟩ := h
      obtain ⟨p1, p2⟩ := ofbuf.put_char_good a hds hbs (c rfl).1 ch s.ls_.avail_in
      refine ⟨rfl, p1, ?_⟩
      rw [p2, hdf, if_neg hch]
    · rename_i hch
      simp only [Option.some.injEq, Prod.mk.injEq] at h
      obtain ⟨rfl, rfl⟩ := h
      refine ⟨rfl, hds, ?_⟩
      rw [hdf, if_pos (not_not.mp hch), List.append_nil]

theorem ofbuf.xsputn_copy_good {σ : Type} {bs : Nat} {t : ofbuf σ} (ht : t.Sane bs)
    (hst : t.Steady) (hbs : bs < 9223372036854775808) (hroom : t.ls_.avail_in < bs)
    (data : List Byte) (count pcount : Int) (hp0 : 0 ≤ pcount) (hlt : pcount < count)
    (entry : Nat) :
    (t.xsputn_copy data pcount (ofbuf.xsputn_wrcount count pcount t) entry).Steady ∧
    (count ≤ (data.length : Int) →
      (t.xsputn_copy data pcount (ofbuf.xsputn_wrcount count pcount t) entry).ls_.fed ++
        (t.xsputn_copy data pcount (ofbuf.xsputn_wrcount count pcount t) entry).pending
      = t.ls_.fed ++ t.pending ++
          (data.drop pcount.toNat).take (ofbuf.xsputn_wrcount count pcount t).toNat) := by
  have hw := ofbuf.xsputn_wrcount_eq ht hbs count pcount
  have hle := ht.in_le
  have hsz : size_t ((t.ls_.avail_in : Int) + ofbuf.xsputn_wrcount count pcount t)
      = t.ls_.avail_in + (ofbuf.xsputn_wrcount count pcount t).toNat := by
    unfold size_t
    omega
  have hst2 : (t.xsputn_copy data pcount (ofbuf.xsputn_wrcount count pcount t) entry).Steady :=
    ⟨hst.1, hst.2⟩
  refine ⟨hst2, ?_⟩
  intro hcount
  rw [hst2.pending_eq, hst.pending_eq, List.append_assoc]
  show t.ls_.fed ++ (writeAt t.ib_ t.ls_.avail_in
      ((data.drop pcount.toNat).take (ofbuf.xsputn_wrcount count pcount t).toNat)).take
      (size_t ((t.ls_.avail_in : Int) + ofbuf.xsputn_wrcount count pcount t)) = _
  rw [hsz]
  have hl : ((data.drop pcount.toNat).take (ofbuf.xsputn_wrcount count pcount t).toNat).length
      = (ofbuf.xsputn_wrcount count pcount t).toNat := by
    rw [List.length_take, List.length_drop]
    omega
  have := writeAt_take t.ib_ t.ls_.avail_in
    ((data.drop pcount.toNat).take (ofbuf.xsputn_wrcount count pcount t).toNat)
    (by rw [ht.ib_len]; omega)
  rw [hl] at this
  rw [this]

/-- When run steps report ok and writes succeed, the loop of `xsputn` can only return
the full count, and the bytes it took from the caller's buffer follow, in order, what the
codec had consumed and what was pending. -/
theorem ofbuf.xsputn_loop_good {σ : Type} (env : OEnv σ) (hok : env.codec.RunOk)
    (hw : env.WritesSucceed) (bs : Nat) (h1 : 1 ≤ bs) (hbs : bs < 9223372036854775808)
    (ofuel : Nat) (data : List Byte) (count : Int) :
    ∀ (fuel : Nat) (pcount : Int) (s : ofbuf σ) (r : Int) (t : ofbuf σ), s.Sane bs →
      s.Steady → 0 ≤ pcount → pcount ≤ count →
      ofbuf.xsputn_loop env ofuel data count fuel pcount s = some (r, t) →
      r = count ∧ t.Steady ∧
      (count ≤ (data.length : Int) →
        t.ls_.fed ++ t.pending
          = s.ls_.fed ++ s.pending ++ (data.drop pcount.toNat).take (count - pcount).toNat) := by
  intro fuel
  induction fuel with
  | zero => intro pcount s r t _ _ _ _ h; exact absurd h (by simp [ofbuf.xsputn_loop])
  | succ n ih =>
    intro pcount s r t hs hst hp0 hp h
    rw [ofbuf.xsputn_loop_succ] at h
    split at h
    · rename_i heq
      simp only [Option.some.injEq, Prod.mk.injEq] at h
      obtain ⟨rfl, rfl⟩ := h
      refine ⟨heq, hst, fun _ => ?_⟩
      rw [heq, sub_self, Int.toNat_zero, List.take_zero, List.append_nil]
    · rename_i hne
      cases hov : ofbuf.overflow env ofuel eof s with
      | none =>
        rw [hov] at h
        exact absurd h (by simp)
      | some rd =>
        obtain ⟨r1, d⟩ := rd
        rw [hov] at h
        simp only at h
        obtain ⟨hr1, hds, hdf⟩ :=
          ofbuf.overflow_good env hok hw bs h1 (by omega) ofuel eof s r1 d hs hst hov
        have hdsane := ofbuf.overflow_sane env bs h1 (by omega) ofuel eof s r1 d hs hov
        rw [if_pos rfl, List.append_nil] at hdf
        rw [hr1, if_neg (to_int_type_ne_eof 0)] at h
        rcases ofbuf.overflow_eof_cases env ofuel s r1 d hov with ⟨hbad, _⟩ | ⟨_, hd⟩
        · rw [hr1] at hbad
          exact absurd hbad (to_int_type_ne_eof 0)
        · obtain ⟨_, _, c⟩ := ofbuf.compress_sane env bs h1 (by omega) ofuel s true d hs hd
          obtain ⟨c1, c2⟩ := c rfl
          have hlt : pcount < count := lt_of_le_of_ne hp hne
          have hwc := ofbuf.xsputn_wrcount_eq hdsane hbs count pcount
          have hcopy := hdsane.after_xsputn_copy hbs c1 data count pcount hlt s.ls_.avail_in c2
          obtain ⟨g1, g2⟩ :=
            ofbuf.xsputn_copy_good hdsane hds hbs c1 data count pcount hp0 hlt s.ls_.avail_in
          have hle := hdsane.in_le
          obtain ⟨x, y, z⟩ := ih _ _ r t hcopy g1 (by rw [hwc]; omega) (by rw [hwc]; omega) h
          refine ⟨x, y, fun hcount => ?_⟩
          rw [z hcount, g2 hcount, hdf]
          have e1 : (pcount + ofbuf.xsputn_wrcount count pcount d).toNat
              = pcount.toNat + (ofbuf.xsputn_wrcount count pcount d).toNat := by
            rw [hwc]; omega
          have e2 : (count - pcount).toNat
              = (ofbuf.xsputn_wrcount count pcount d).toNat
                + (count - (pcount + ofbuf.xsputn_wrcount count pcount d)).toNat := by
            rw [hwc]; omega
          rw [e1, e2, List.take_add, List.drop_drop]
          simp only [List.append_assoc]

/-! ## The encoding bridge: termination of the write path -/

/-- When run steps report ok, consume their input eventually, and writes succeed, the
compression loop is left through its condition once it has enough fuel. -/
theorem ofbuf.drain_terminates {σ : Type} (env : OEnv σ) (hok : env.codec.RunOk)
    (hw : env.WritesSucceed) (rank : σ → List Byte → Nat)
    (hrank : ∀ st inp room, inp ≠ [] → 0 < room →
      rank (env.codec.code st inp room lzma_action.LZMA_RUN).internal
           (inp.drop (env.codec.code st inp room lzma_action.LZMA_RUN).consumed) < rank st inp)
    (bs : Nat) (h1 : 1 ≤ bs) (hbs : bs < 18446744073709551616) :
    ∀ (m : Nat) (s : ofbuf σ), s.Sane bs → s.Mid bs → rank s.ls_.internal s.pending ≤ m →
      ∃ t, ∀ n, m < n → ofbuf.drain env n s = some (true, t) := by
  intro m
  induction m with
  | zero =>
    intro s hs hm hr
    by_cases h0 : s.ls_.avail_in = 0
    · refine ⟨s, fun n hn => ?_⟩
      obtain ⟨k, rfl⟩ : ∃ k, n = k + 1 := ⟨n - 1, by omega⟩
      rw [ofbuf.drain_succ, if_pos h0]
    · have hl := hs.pending_length hm.1
      have hne : s.pending ≠ [] := by
        intro he
        rw [he] at hl
        exact h0 hl.symm
      have := hrank s.ls_.internal s.pending s.ls_.avail_out hne hm.2
      omega
  | succ m ih =>
    intro s hs hm hr
    by_cases h0 : s.ls_.avail_in = 0
    · refine ⟨s, fun n hn => ?_⟩
      obtain ⟨k, rfl⟩ : ∃ k, n = k + 1 := ⟨n - 1, by omega⟩
      rw [ofbuf.drain_succ, if_pos h0]
    · have hl := hs.pending_length hm.1
      have hne : s.pending ≠ [] := by
        intro he
        rw [he] at hl
        exact h0 hl.symm
      have hdec := hrank s.ls_.internal s.pending s.ls_.avail_out hne hm.2
      have hret : (s.code_result env lzma_action.LZMA_RUN).ret = lzma_ret.LZMA_OK :=
        hok _ _ _ hne hm.2
      have hc := hs.after_code env lzma_action.LZMA_RUN
      have hmc := hm.code_in_bounds hs env lzma_action.LZMA_RUN
      have hrk : rank (s.coded env lzma_action.LZMA_RUN).ls_.internal
          (s.coded env lzma_action.LZMA_RUN).pending ≤ m := by
        rw [ofbuf.coded_internal, ofbuf.coded_pending]
        have : rank (s.code_result env lzma_action.LZMA_RUN).internal
            (s.pending.drop (s.code_result env lzma_action.LZMA_RUN).consumed)
            < rank s.ls_.internal s.pending := hdec
        omega
      by_cases hout : (s.coded env lzma_action.LZMA_RUN).ls_.avail_out = 0
      · obtain ⟨_, _, _, _, _, f6, f7, f8, _, _⟩ :=
          ofbuf.sync_frame env (s.coded env lzma_action.LZMA_RUN)
        have hcur := hc.sync_cursor hbs env
        have hmid : (ofbuf.sync env (s.coded env lzma_action.LZMA_RUN)).2.Mid bs := by
          refine ⟨?_, ?_⟩
          · rw [f6, f7]; exact hmc
          · rw [hcur.2]; exact h1
        have hrk2 : rank (ofbuf.sync env (s.coded env lzma_action.LZMA_RUN)).2.ls_.internal
            (ofbuf.sync env (s.coded env lzma_action.LZMA_RUN)).2.pending ≤ m := by
          rw [f8, ofbuf.sync_pending]
          exact hrk
        obtain ⟨t, ht⟩ := ih _ (hc.after_sync hbs env) hmid hrk2
        refine ⟨t, fun n hn => ?_⟩
        obtain ⟨k, rfl⟩ : ∃ k, n = k + 1 := ⟨n - 1, by omega⟩
        rw [ofbuf.drain_succ, if_neg h0, if_neg (by simp [hret]), if_pos hout,
          if_neg (ofbuf.sync_ret_of_succeed env hw _)]
        exact ht k (by omega)
      · have hmid : (s.coded env lzma_action.LZMA_RUN).Mid bs := ⟨hmc, by omega⟩
        obtain ⟨t, ht⟩ := ih _ hc hmid hrk
        refine ⟨t, fun n hn => ?_⟩
        obtain ⟨k, rfl⟩ : ∃ k, n = k + 1 := ⟨n - 1, by omega⟩
        rw [ofbuf.drain_succ, if_neg h0, if_neg (by simp [hret]), if_neg hout]
        exact ht k (by omega)

theorem ofbuf.compress_terminates {σ : Type} (env : OEnv σ) (hok : env.codec.RunOk)
    (hw : env.WritesSucceed) (hcons : env.codec.RunConsumes) (bs : Nat) (h1 : 1 ≤ bs)
    (hbs : bs < 18446744073709551616) (s : ofbuf σ) (hs : s.Sane bs) (hst : s.Steady) :
    ∃ t N, ∀ n, N ≤ n → ofbuf.compress env n s = some (true, t) := by
  obtain ⟨rank, hrank⟩ := hcons
  by_cases hfull : s.ls_.avail_in = s.bs_
  · obtain ⟨d, hd⟩ := ofbuf.drain_terminates env hok hw rank hrank bs h1 hbs
      (rank s.ls_.internal s.pending) s hs (hst.mid hs) (le_refl _)
    refine ⟨{ d with ls_ := { d.ls_ with next_in := 0, avail_in := 0 } },
      rank s.ls_.internal s.pending + 1, fun n hn => ?_⟩
    rw [ofbuf.compress_eq, if_pos hfull, hd n (by omega)]
  · refine ⟨s, 0, fun n _ => ?_⟩
    rw [ofbuf.compress_eq, if_neg hfull]

theorem ofbuf.overflow_terminates {σ : Type} (env : OEnv σ) (hok : env.codec.RunOk)
    (hw : env.WritesSucceed) (hcons : env.codec.RunConsumes) (bs : Nat) (h1 : 1 ≤ bs)
    (hbs : bs < 18446744073709551616) (ch : Int) (s : ofbuf σ) (hs : s.Sane bs)
    (hst : s.Steady) :
    ∃ t N, ∀ n, N ≤ n → ofbuf.overflow env n ch s = some (to_int_type 0, t) := by
  obtain ⟨d, N, hd⟩ := ofbuf.compress_terminates env hok hw hcons bs h1 hbs s hs hst
  by_cases hch : ch = eof
  · refine ⟨d, N, fun n hn => ?_⟩
    rw [ofbuf.overflow_eq, hd n hn]
    simp only [hch, ne_eq, not_true_eq_false, if_false]
  · refine ⟨d.put_char ch s.ls_.avail_in, N, fun n hn => ?_⟩
    rw [ofbuf.overflow_eq, hd n hn]
    simp only [ne_eq, hch, not_false_eq_true, if_true]

/-- When run steps report ok, consume their input eventually, and writes succeed, the
loop of `xsputn` returns the full count once both fuels are large enough. -/
theorem ofbuf.xsputn_loop_terminates {σ : Type} (env : OEnv σ) (hok : env.codec.RunOk)
    (hw : env.WritesSucceed) (hcons : env.codec.RunConsumes) (bs : Nat) (h1 : 1 ≤ bs)
    (hbs : bs < 9223372036854775808) (data : List Byte) (count : Int) :
    ∀ (k : Nat) (pcount : Int) (s : ofbuf σ), s.Sane bs → s.Steady → 0 ≤ pcount →
      pcount ≤ count → (count - pcount).toNat ≤ k →
      ∃ t N, ∀ ofuel fuel, N ≤ ofuel → N ≤ fuel →
        ofbuf.xsputn_loop env ofuel data count fuel pcount s = some (count, t) := by
  intro k
  induction k with
  | zero =>
    intro pcount s _ _ _ hp hk
    have heq : pcount = count := by omega
    refine ⟨s, 1, fun ofuel fuel _ hf => ?_⟩
    obtain ⟨j, rfl⟩ : ∃ j, fuel = j + 1 := ⟨fuel - 1, by omega⟩
    rw [ofbuf.xsputn_loop_succ, if_pos heq, heq]
  | succ k ih =>
    intro pcount s hs hst hp0 hp hk
    by_cases heq : pcount = count
    · refine ⟨s, 1, fun ofuel fuel _ hf => ?_⟩
      obtain ⟨j, rfl⟩ : ∃ j, fuel = j + 1 := ⟨fuel - 1, by omega⟩
      rw [ofbuf.xsputn_loop_succ, if_pos heq, heq]
    · obtain ⟨d, N1, hd⟩ :=
        ofbuf.overflow_terminates env hok hw hcons bs h1 (by omega) eof s hs hst
      have hov := hd N1 (le_refl _)
      obtain ⟨_, hds, _⟩ :=
        ofbuf.overflow_good env hok hw bs h1 (by omega) N1 eof s _ d hs hst hov
      have hdsane := ofbuf.overflow_sane env bs h1 (by omega) N1 eof s _ d hs hov
      rcases ofbuf.overflow_eof_cases env N1 s _ d hov with ⟨hbad, _⟩ | ⟨_, hcd⟩
      · exact absurd hbad (to_int_type_ne_eof 0)
      · obtain ⟨_, _, c⟩ := ofbuf.compress_sane env bs h1 (by omega) N1 s true d hs hcd
        obtain ⟨c1, c2⟩ := c rfl
        have hlt : pcount < count := lt_of_le_of_ne hp heq
        have hwc := ofbuf.xsputn_wrcount_eq hdsane hbs count pcount
        have hcopy := hdsane.after_xsputn_copy hbs c1 data count pcount hlt s.ls_.avail_in c2
        obtain ⟨g1, _⟩ :=
          ofbuf.xsputn_copy_good hdsane hds hbs c1 data count pcount hp0 hlt s.ls_.avail_in
        have hle := hdsane.in_le
        obtain ⟨t, N2, ht⟩ := ih (pcount + ofbuf.xsputn_wrcount count pcount d) _ hcopy g1
          (by rw [hwc]; omega) (by rw [hwc]; omega) (by rw [hwc]; omega)
        refine ⟨t, max N1 (N2 + 1), fun ofuel fuel ho hf => ?_⟩
        obtain ⟨j, rfl⟩ : ∃ j, fuel = j + 1 := ⟨fuel - 1, by omega⟩
        rw [ofbuf.xsputn_loop_succ, if_neg heq, hd ofuel (by omega)]
        simp only [to_int_type_ne_eof, if_false]
        exact ht ofuel j (by omega) (by omega)

/-! ## The storing codec satisfies the assumptions -/

theorem copy_codec_run_ok : copy_codec.RunOk := by
  intro st inp room _ _
  simp [copy_codec]

theorem copy_codec_run_consumes : copy_codec.RunConsumes := by
  refine ⟨fun _ inp => inp.length, ?_⟩
  intro st inp room hne hroom
  have hpos : 0 < inp.length := List.length_pos.mpr hne
  simp only [copy_codec, List.length_drop]
  omega

theorem full_oenv_writes_succeed : full_oenv.WritesSucceed := by
  intro k req h
  exact absurd h (by simp [full_oenv, store_oenv, write_all])

theorem two_opened_reachable : ofbuf.Reachable full_oenv 2 two_opened.2 :=
  ofbuf.Reachable.opened
    (rfl : ofbuf.open full_oenv 9 "out.xz" 6 false 2 (ofbuf.init full_oenv)
      = some (true, two_opened.2))

theorem two_written_reachable : ofbuf.Reachable full_oenv 2 two_written.2 :=
  ofbuf.Reachable.bulk two_opened_reachable
    (rfl : ofbuf.xsputn full_oenv 9 [7, 8, 9] 3 two_opened.2 = some (3, two_written.2))

/-! ## The encoding bridge: invariants of the reachable states -/

theorem ofbuf.Reachable.steady {σ : Type} {env : OEnv σ} {bs : Nat} (h1 : 1 ≤ bs)
    (hok : env.codec.RunOk) (hw : env.WritesSucceed) {s : ofbuf σ}
    (hr : ofbuf.Reachable env bs s) : s.Steady := by
  have hbs := hr.bound
  induction hr with
  | opened h =>
    obtain ⟨_, _, _, _, h5, _, _, h8, _⟩ := ofbuf.open_state env _ _ _ _ bs _ _ h
    exact ⟨h5, by rw [h8]; exact h1⟩
  | put hs h ih =>
    exact (ofbuf.overflow_good env hok hw bs h1 (by omega) _ _ _ _ _ (hs.sane h1 hbs)
      ih h).2.1
  | bulk hs h ih =>
    exact (ofbuf.xsputn_loop_good env hok hw bs h1 hbs _ _ _ _ _ _ _ _ (hs.sane h1 hbs)
      ih (le_refl _) (by omega) h).2.1
  | flush hs ih =>
    obtain ⟨_, _, _, _, _, f6, _⟩ := ofbuf.sync_frame env _
    have hcur := (hs.sane h1 hbs).sync_cursor (by omega) env
    exact ⟨by rw [f6]; exact ih.1, by rw [hcur.2]; exact h1⟩

/-- C4 (bulk write).  For an encoding bridge reachable from a successful `open` with
buffer size at least `1` and a caller buffer `data` of `count` bytes: if every run step
reports ok, run steps eventually consume their input, and every write succeeds, then
`xsputn` returns `count` with any fuel from some bound on, and the bytes the codec has
consumed followed by the bytes pending in the accumulation buffer are what they were
before followed by `data`; and whenever `xsputn` returns, with any codec and any
writes, the returned value lies between `0` and `count`. -/
theorem xsputn_accepts_all {σ : Type} (env : OEnv σ) (bs : Nat) (s : ofbuf σ)
    (data : List Byte) (count : Nat) (h1 : 1 ≤ bs) (hr : ofbuf.Reachable env bs s)
    (hlen : data.length = count) :
    (env.codec.RunOk → env.codec.RunConsumes → env.WritesSucceed →
      ∃ t N, (∀ fuel, N ≤ fuel → ofbuf.xsputn env fuel data count s = some ((count : Int), t)) ∧
        t.ls_.fed ++ t.pending = s.ls_.fed ++ s.pending ++ data) ∧
    (∀ fuel r t, ofbuf.xsputn env fuel data count s = some (r, t) →
      0 ≤ r ∧ r ≤ (count : Int)) := by
  have hbs := hr.bound
  have hs := hr.sane h1 hbs
  refine ⟨fun hok hcons hw => ?_, fun fuel r t h => ?_⟩
  · have hst := hr.steady h1 hok hw
    obtain ⟨t, N, ht⟩ := ofbuf.xsputn_loop_terminates env hok hw hcons bs h1 hbs data count
      count 0 s hs hst (le_refl _) (by omega) (by omega)
    refine ⟨t, N, fun fuel hf => ht fuel fuel hf hf, ?_⟩
    have hgood := (ofbuf.xsputn_loop_good env hok hw bs h1 hbs N data count N 0 s _ t hs hst
      (le_refl _) (by omega) (ht N N (le_refl _) (le_refl _))).2.2 (by omega)
    rw [hgood]
    simp only [Int.toNat_zero, List.drop_zero, sub_zero, Int.toNat_ofNat]
    rw [← hlen, List.take_length]
  · exact (ofbuf.xsputn_sane env bs h1 hbs fuel data count s r t hs h).2

/-- C4 at a concrete input: three bytes written in bulk through a bridge of buffer
size `2` that already holds three bytes, with the storing codec and writes in full. -/
theorem xsputn_accepts_all_witness :
    ∃ t N, (∀ fuel, N ≤ fuel →
        ofbuf.xsputn full_oenv fuel [4, 5, 6] 3 two_written.2 = some (3, t)) ∧
      t.ls_.fed ++ t.pending = two_written.2.ls_.fed ++ two_written.2.pending ++ [4, 5, 6] :=
  (xsputn_accepts_all full_oenv 2 two_written.2 [4, 5, 6] 3 (by decide) two_written_reachable
    rfl).1 copy_codec_run_ok copy_codec_run_consumes full_oenv_writes_succeed

/-- C6 as stated fails on a short write.  In the state in which `overflow` calls `sync`
on an open bridge of buffer size `2` holding the two output bytes `1 2`, the `write` writes one
of the two bytes; `sync` returns `0`, success, and the file holds `1` only.  Seen from
the caller: `overflow` on the full buffer returns success although a byte the codec
produced is in neither the file nor the output buffer. -/
theorem sync_short_write_reports_success :
    short_before_sync.is_open = true ∧
    short_before_sync.output_fill = 2 ∧
    short_before_sync.ob_.take short_before_sync.output_fill = [1, 2] ∧
    short_oenv.sys_write short_before_sync.wlog.length
      (short_before_sync.ob_.take short_before_sync.output_fill) = write_result.wrote 1 ∧
    (ofbuf.sync short_oenv short_before_sync).1 = 0 ∧
    (ofbuf.sync short_oenv short_before_sync).2.file = [1] ∧
    (short_filled.bind (fun r => ofbuf.overflow short_oenv 9 3 r.2)).map
      (fun r => (r.1, r.2.file, r.2.output_fill, r.2.ls_.emitted))
      = some (0, [1], 0, [1, 2]) := by
  refine ⟨by decide, by decide, by decide, by decide, by decide, by decide, by decide⟩

/-- C6, amended: a short write is reported as success.  With no pending output bytes
`sync` returns `0` and changes nothing (no write).  Otherwise it issues exactly one
write, of the pending bytes (the first `bs_ - avail_out` bytes of the output buffer),
puts the output cursor back to the start with the full capacity, and returns `-1`
exactly when the write returned `-1`; when the write wrote any number of bytes, all of
them or fewer, it returns `0`. -/
theorem sync_result {σ : Type} (env : OEnv σ) (s : ofbuf σ) :
    (s.output_fill = 0 → ofbuf.sync env s = (0, s)) ∧
    (s.output_fill ≠ 0 →
      (ofbuf.sync env s).2.wlog = s.wlog ++ [s.ob_.take s.output_fill] ∧
      (ofbuf.sync env s).2.file = s.file ++ (s.ob_.take s.output_fill).take
        (env.sys_write s.wlog.length (s.ob_.take s.output_fill)).written ∧
      (ofbuf.sync env s).2.ls_.next_out = 0 ∧
      (ofbuf.sync env s).2.ls_.avail_out = s.bs_ ∧
      ((ofbuf.sync env s).1 = -1 ↔
        env.sys_write s.wlog.length (s.ob_.take s.output_fill) = write_result.error) ∧
      (∀ n, env.sys_write s.wlog.length (s.ob_.take s.output_fill) = write_result.wrote n →
        (ofbuf.sync env s).1 = 0)) := by
  refine ⟨ofbuf.sync_idle env s, fun h => ?_⟩
  rw [ofbuf.sync_write env s h]
  refine ⟨rfl, rfl, rfl, rfl, ?_, ?_⟩
  · cases hr : env.sys_write s.wlog.length (s.ob_.take s.output_fill) with
    | error => simp [write_result.ret]
    | wrote n =>
      simp only [write_result.ret]
      have : ¬ ((n : Int) = -1) := by omega
      simp [this]
  · intro n hn
    simp only [hn, write_result.ret]
    have : ¬ ((n : Int) = -1) := by omega
    simp [this]

/-- C6 amended, at a concrete input: the state with two pending output bytes and a
`write` that writes one of them. -/
theorem sync_result_witness :
    (ofbuf.sync short_oenv short_before_sync).2.wlog
      = short_before_sync.wlog ++ [short_before_sync.ob_.take short_before_sync.output_fill] ∧
    (ofbuf.sync short_oenv short_before_sync).2.file
      = short_before_sync.file ++
        (short_before_sync.ob_.take short_before_sync.output_fill).take
          (short_oenv.sys_write short_before_sync.wlog.length
            (short_before_sync.ob_.take short_before_sync.output_fill)).written ∧
    (ofbuf.sync short_oenv short_before_sync).2.ls_.next_out = 0 ∧
    (ofbuf.sync short_oenv short_before_sync).2.ls_.avail_out = short_before_sync.bs_ ∧
    ((ofbuf.sync short_oenv short_before_sync).1 = -1 ↔
      short_oenv.sys_write short_before_sync.wlog.length
        (short_before_sync.ob_.take short_before_sync.output_fill) = write_result.error) ∧
    (∀ n, short_oenv.sys_write short_before_sync.wlog.length
        (short_before_sync.ob_.take short_before_sync.output_fill) = write_result.wrote n →
      (ofbuf.sync short_oenv short_before_sync).1 = 0) :=
  (sync_result short_oenv short_before_sync).2 (by decide)

/-! ## The decoding bridge: what `open` and `underflow` do get right -/

/-- The failures `ifbuf::open` does detect: when it returns `false` the bridge is not
open, and when it returns `true` the bridge is open, the file opened, the pointer
returned by `mmap` is not null, the decoder initialised and the initial run step
reported ok. -/
theorem ifbuf.open_result {σ : Type} (env : IEnv σ) (f : String) (bs : Nat) (self : ifbuf σ)
    (b : Bool) (t : ifbuf σ) (h : ifbuf.open env f bs self = some (b, t)) :
    t.is_open = b ∧
    (b = true → env.sys_open f ≠ -1 ∧ env.lzma_stream_decoder.1 = lzma_ret.LZMA_OK ∧
      (env.sys_mmap (env.sys_fstat (env.sys_open f)).st_size (env.sys_open f)).ptr ≠ 0 ∧
      (env.codec.code env.lzma_stream_decoder.2
        (((env.sys_mmap (env.sys_fstat (env.sys_open f)).st_size
            (env.sys_open f)).bytes.drop 0).take (env.sys_fstat (env.sys_open f)).st_size)
        bs lzma_action.LZMA_RUN).ret = lzma_ret.LZMA_OK) := by
  have hclosed : (if self.open_ = true then ifbuf.close env self else self).open_ = false := by
    by_cases ho : self.open_ = true
    · rw [if_pos ho]
      unfold ifbuf.close
      simp [ho]
    · rw [if_neg ho]
      simpa using ho
  unfold ifbuf.open at h
  simp only at h
  split at h
  · simp only [Option.some.injEq, Prod.mk.injEq] at h
    obtain ⟨rfl, rfl⟩ := h
    exact ⟨hclosed, fun hb => absurd hb (by decide)⟩
  · rename_i hfd
    split at h
    · simp only [Option.some.injEq, Prod.mk.injEq] at h
      obtain ⟨rfl, rfl⟩ := h
      exact ⟨hclosed, fun hb => absurd hb (by decide)⟩
    · rename_i hmem
      split at h
      · exact absurd h (by simp)
      · split at h
        · simp only [Option.some.injEq, Prod.mk.injEq] at h
          obtain ⟨rfl, rfl⟩ := h
          exact ⟨hclosed, fun hb => absurd hb (by decide)⟩
        · rename_i hdec
          split at h
          · simp only [Option.some.injEq, Prod.mk.injEq] at h
            obtain ⟨rfl, rfl⟩ := h
            exact ⟨hclosed, fun hb => absurd hb (by decide)⟩
          · rename_i hrun
            simp only [Option.some.injEq, Prod.mk.injEq] at h
            obtain ⟨rfl, rfl⟩ := h
            exact ⟨rfl, fun _ => ⟨hfd, not_not.mp hdec, hmem, not_not.mp hrun⟩⟩

/-- With the buffer exhausted and no compressed input left, `underflow` returns
end-of-data and does not call the codec: the state is unchanged. -/
theorem ifbuf.underflow_exhausted {σ : Type} (env : IEnv σ) (self : ifbuf σ)
    (hav : self.avail_bytes = 0) (hin : self.ls_.avail_in = 0) :
    ifbuf.underflow env self = (eof, self) := by
  unfold ifbuf.underflow
  simp [hav, hin]

/-- With the buffer exhausted and compressed input left, `underflow` returns
end-of-data when the refill step reports anything other than ok. -/
theorem ifbuf.underflow_refill_failed {σ : Type} (env : IEnv σ) (self : ifbuf σ)
    (hav : self.avail_bytes = 0) (hin : self.ls_.avail_in ≠ 0)
    (hret : (env.codec.code self.ls_.internal
      ((self.mapped.drop self.ls_.next_in).take self.ls_.avail_in) self.bs_
      lzma_action.LZMA_RUN).ret ≠ lzma_ret.LZMA_OK) :
    (ifbuf.underflow env self).1 = eof := by
  unfold ifbuf.underflow
  simp only [hav, ne_eq, not_true_eq_false, if_false, hin, not_false_eq_true, if_true]
  rw [if_neg]
  exact hret

/-! ## The decoding bridge: where the cursor invariant holds -/

theorem ifbuf.Inv.valid {σ : Type} {s : ifbuf σ} (h : s.Inv) :
    s.valid_bytes = s.bs_ - s.ls_.avail_out ∧ s.co_ ≤ s.valid_bytes ∧
    s.valid_bytes ≤ s.bs_ ∧ s.avail_bytes = s.bs_ - s.ls_.avail_out - s.co_ := by
  obtain ⟨h1, h2⟩ := h
  have hv : s.valid_bytes = s.bs_ - s.ls_.avail_out := by
    unfold ifbuf.valid_bytes
    rw [size_t_sub _ _ (by omega) (by omega)]
  have ha : s.avail_bytes = s.bs_ - s.ls_.avail_out - s.co_ := by
    have hinner : size_t ((s.bs_ : Int) - (s.ls_.avail_out : Int)) = s.bs_ - s.ls_.avail_out :=
      size_t_sub _ _ (by omega) (by omega)
    unfold ifbuf.avail_bytes
    simp only
    rw [hinner, size_t_sub _ _ (by omega) (by omega)]
  refine ⟨hv, ?_, ?_, ha⟩
  · rw [hv]; omega
  · rw [hv]; omega

theorem ifbuf.underflow_refill {σ : Type} (env : IEnv σ) (s : ifbuf σ)
    (hav : s.avail_bytes = 0) (hin : s.ls_.avail_in ≠ 0) :
    (ifbuf.underflow env s).2.co_ = 0 ∧ (ifbuf.underflow env s).2.bs_ = s.bs_ ∧
    (ifbuf.underflow env s).2.ls_.avail_out
      = s.bs_ - (s.refill_result env).produced.length ∧
    (ifbuf.underflow env s).2.b_ = writeAt s.b_ 0 (s.refill_result env).produced ∧
    (ifbuf.underflow env s).1
      = if (s.refill_result env).ret = lzma_ret.LZMA_OK
        then (((writeAt s.b_ 0 (s.refill_result env).produced).getD 0 0 : Nat) : Int)
        else eof := by
  unfold ifbuf.underflow
  rw [if_neg (not_not.mpr hav), if_pos hin]
  exact ⟨rfl, rfl, rfl, rfl, rfl⟩

/-- Whatever the codec does, `underflow` keeps the cursor invariant. -/
theorem ifbuf.underflow_inv {σ : Type} (env : IEnv σ) (s : ifbuf σ) (h : s.Inv) :
    (ifbuf.underflow env s).2.Inv := by
  by_cases hav : s.avail_bytes = 0
  · by_cases hin : s.ls_.avail_in = 0
    · rw [ifbuf.underflow_exhausted env s hav hin]
      exact h
    · obtain ⟨e1, e2, e3, _, _⟩ := ifbuf.underflow_refill env s hav hin
      unfold ifbuf.Inv
      rw [e1, e2, e3]
      exact ⟨by omega, h.2⟩
  · rw [ifbuf.underflow_of_avail env s hav]
    exact h

/-- Whatever the codec does, a bulk read that returns keeps the cursor invariant. -/
theorem ifbuf.xsgetn_loop_inv {σ : Type} (env : IEnv σ) :
    ∀ (fuel : Nat) (count gcount : Int) (dst : List Byte) (s : ifbuf σ) (r : Int)
      (out : List Byte) (t : ifbuf σ), s.Inv → 0 ≤ count →
      ifbuf.xsgetn_loop env fuel count gcount dst s = some (r, out, t) → t.Inv := by
  intro fuel
  induction fuel with
  | zero => intro _ _ _ s r out t _ _ h; exact absurd h (by simp [ifbuf.xsgetn_loop])
  | succ n ih =>
    intro count gcount dst s r out t hs hc h
    have hu := ifbuf.underflow_inv env s hs
    obtain ⟨_, _, _, ha⟩ := hu.valid
    unfold ifbuf.xsgetn_loop at h
    simp only at h
    split at h
    · simp only [Option.some.injEq, Prod.mk.injEq] at h
      obtain ⟨_, _, rfl⟩ := h
      exact hu
    · have hss : streamsize (ifbuf.underflow env s).2.avail_bytes
          = ((ifbuf.underflow env s).2.avail_bytes : Int) :=
        streamsize_of_lt _ (by rw [ha]; have := hu.2; omega)
      rw [hss] at h
      have hnext : ({ (ifbuf.underflow env s).2 with
          co_ := size_t (((ifbuf.underflow env s).2.co_ : Int)
            + min count ((ifbuf.underflow env s).2.avail_bytes : Int)) } : ifbuf σ).Inv := by
        unfold ifbuf.Inv
        simp only
        have h1 := hu.1
        have h2 := hu.2
        have : size_t (((ifbuf.underflow env s).2.co_ : Int)
            + min count ((ifbuf.underflow env s).2.avail_bytes : Int))
            ≤ (ifbuf.underflow env s).2.co_ + (ifbuf.underflow env s).2.avail_bytes := by
          unfold size_t
          omega
        exact ⟨by omega, h2⟩
      split at h
      · simp only [Option.some.injEq, Prod.mk.injEq] at h
        obtain ⟨_, _, rfl⟩ := h
        exact hnext
      · exact ih _ _ _ _ r out t hnext (by omega) h

/-- When `underflow` returns a value other than end-of-data and the refill step, if
there was one, produced at least one byte, the buffer has an unread byte afterwards and
the value returned is the buffer byte at index `co_`; `uflow` then keeps the cursor
invariant. -/
theorem ifbuf.underflow_fresh {σ : Type} (env : IEnv σ) (s : ifbuf σ) (h : s.Inv)
    (hprod : s.avail_bytes = 0 → (s.refill_result env).ret = lzma_ret.LZMA_OK →
      (s.refill_result env).produced ≠ [])
    (hne : (ifbuf.underflow env s).1 ≠ eof) :
    0 < (ifbuf.underflow env s).2.avail_bytes ∧
    (ifbuf.underflow env s).1
      = to_int_type ((ifbuf.underflow env s).2.b_.getD (ifbuf.underflow env s).2.co_ 0) ∧
    (ifbuf.uflow env s).2.Inv := by
  have hu := ifbuf.underflow_inv env s h
  obtain ⟨_, _, _, ha⟩ := hu.valid
  have hfl : 0 < (ifbuf.underflow env s).2.avail_bytes → (ifbuf.uflow env s).2.Inv := by
    intro hpos
    unfold ifbuf.uflow
    simp only [hne, ne_eq, not_false_eq_true, if_true]
    unfold ifbuf.Inv
    simp only
    have h1 := hu.1
    have h2 := hu.2
    have : size_t (((ifbuf.underflow env s).2.co_ : Int) + 1)
        = (ifbuf.underflow env s).2.co_ + 1 := by
      unfold size_t
      omega
    rw [this]
    exact ⟨by omega, h2⟩
  by_cases hav : s.avail_bytes = 0
  · by_cases hin : s.ls_.avail_in = 0
    · rw [ifbuf.underflow_exhausted env s hav hin] at hne
      exact absurd rfl hne
    · obtain ⟨e1, e2, e3, e4, e5⟩ := ifbuf.underflow_refill env s hav hin
      by_cases hret : (s.refill_result env).ret = lzma_ret.LZMA_OK
      · have hp := hprod hav hret
        have hplen : 0 < (s.refill_result env).produced.length := List.length_pos.mpr hp
        have hple : (s.refill_result env).produced.length ≤ s.bs_ :=
          env.codec.produced_le _ _ _ _
        have hpos : 0 < (ifbuf.underflow env s).2.avail_bytes := by
          rw [ha, e1, e2, e3]
          omega
        refine ⟨hpos, ?_, hfl hpos⟩
        rw [e5, if_pos hret, e1, e4]
        rfl
      · rw [e5, if_neg hret] at hne
        exact absurd rfl hne
  · have hpos : 0 < (ifbuf.underflow env s).2.avail_bytes := by
      rw [ifbuf.underflow_of_avail env s hav]
      show 0 < s.avail_bytes
      omega
    refine ⟨hpos, ?_, hfl hpos⟩
    rw [ifbuf.underflow_of_avail env s hav]

/-! ## The stream front-ends -/

/-- The read front-end marks failure exactly when the bridge's `open` returns `false`. -/
theorem ifstream_open_failbit {σ : Type} (env : IEnv σ) (f : String) (bs : Nat)
    (self t : ifstream σ) (hclear : self.state.failbit = false)
    (h : ifstream.open env f bs self = some t) :
    ∃ r, ifbuf.open env f bs self.ifb_ = some r ∧ t.ifb_ = r.2 ∧
      (t.state.failbit = true ↔ r.1 = false) := by
  unfold ifstream.open at h
  cases hr : ifbuf.open env f bs self.ifb_ with
  | none =>
    rw [hr] at h
    exact absurd h (by simp)
  | some r =>
    rw [hr] at h
    refine ⟨r, rfl, ?_⟩
    cases hb : r.1
    · simp only [hb, Bool.not_false, if_true, Option.some.injEq] at h
      subst h
      simp [setstate_failbit]
    · simp only [hb, Bool.not_true, Bool.false_eq_true, if_false, Option.some.injEq] at h
      subst h
      simp [hclear]

/-- The multi-worker write front-end marks failure exactly when the bridge's `open`
returns `false`. -/
theorem mtofstream_open_failbit {σ : Type} (env : OEnv σ) (fuel : Nat) (f : String)
    (preset bs : Nat) (self t : mtofstream σ) (hclear : self.state.failbit = false)
    (h : mtofstream.open env fuel f preset bs self = some t) :
    ∃ r, ofbuf.open env fuel f preset true bs self.ofb_ = some r ∧ t.ofb_ = r.2 ∧
      (t.state.failbit = true ↔ r.1 = false) := by
  unfold mtofstream.open at h
  cases hr : ofbuf.open env fuel f preset true bs self.ofb_ with
  | none =>
    rw [hr] at h
    exact absurd h (by simp)
  | some r =>
    rw [hr] at h
    refine ⟨r, rfl, ?_⟩
    cases hb : r.1
    · simp only [hb, Bool.not_false, if_true, Option.some.injEq] at h
      subst h
      simp [setstate_failbit]
    · simp only [hb, Bool.not_true, Bool.false_eq_true, if_false, Option.some.injEq] at h
      subst h
      simp [hclear]

/-- The single-worker write front-end marks failure whatever the bridge's `open`
returns. -/
theorem ofstream_open_failbit_always {σ : Type} (env : OEnv σ) (fuel : Nat) (f : String)
    (preset bs : Nat) (self t : ofstream σ)
    (h : ofstream.open env fuel f preset bs self = some t) : t.state.failbit = true := by
  unfold ofstream.open at h
  cases hr : ofbuf.open env fuel f preset false bs self.ofb_ with
  | none =>
    rw [hr] at h
    exact absurd h (by simp)
  | some r =>
    rw [hr] at h
    simp only [ite_self, Option.some.injEq] at h
    subst h
    rfl

end lzma
